import Mathlib

/-
Shallow embedding of `scripts/translate_admin_locales.py`.

Python strings are modelled as `List Char` (a Python `str` is a sequence of
unicode code points).  The regex `(\{\{.*?\}\}|\{[^\{\}]+\})` together with
`re.sub` is embedded as an explicit leftmost scan (`protectF`), `str.replace`
as leftmost non-overlapping replacement of every occurrence (`replaceAll`),
and the recursive `translate_value` as a mutual structural recursion over a
JSON value type, threading the cache and recording emitted warnings and the
strings for which the injected translation function was invoked.

Recursions that are not structural in Python (scanning a shrinking string,
repeated division by 10) are given an explicit fuel argument; the exported
definitions instantiate the fuel with a bound that is always sufficient, so
they compute by kernel reduction.
-/

/- Decimal rendering of a natural number, as Python `str(n)` inside the
f-string `f"__TOKEN_{len(tokens) - 1}__"` (line 31 of the script). -/
def digitChar : Nat → Char
  | 0 => '0'
  | 1 => '1'
  | 2 => '2'
  | 3 => '3'
  | 4 => '4'
  | 5 => '5'
  | 6 => '6'
  | 7 => '7'
  | 8 => '8'
  | _ => '9'

def natCharsF : Nat → Nat → List Char
  | 0, _ => []
  | fuel + 1, n => if n < 10 then [digitChar n] else natCharsF fuel (n / 10) ++ [digitChar (n % 10)]

/- Decimal digits of `n`, most significant first: Python `str(n)` for a
nonnegative int. -/
def natChars (n : Nat) : List Char :=
  natCharsF (n + 1) n

/- The marker the script substitutes for the idx-th placeholder:
`f"__TOKEN_{idx}__"` (line 31). -/
def marker (n : Nat) : List Char :=
  '_' :: '_' :: 'T' :: 'O' :: 'K' :: 'E' :: 'N' :: '_' :: (natChars n ++ ['_', '_'])

/- The six-character core `TOKEN_` shared by every marker; a string that does
not contain it cannot collide with any marker. -/
def TOKENPAT : List Char := ['T', 'O', 'K', 'E', 'N', '_']

/- § The placeholder regex `(\{\{.*?\}\}|\{[^\{\}]+\})` (line 23), matched at
the start of a string.

`findClose cs` implements the backtracking search of `.*?\}\}`: it returns the
shortest prefix `p` of `cs` made of non-newline characters (`.` does not match
a newline) such that `cs = p ++ "}}" ++ rest`. -/
def findClose : List Char → Option (List Char × List Char)
  | [] => none
  | c :: rest =>
    if c = '}' ∧ rest.head? = some '}' then some ([], rest.tail)
    else if c = '\n' then none
    else
      match findClose rest with
      | some (p, r) => some (c :: p, r)
      | none => none

/- First alternative `\{\{.*?\}\}` tried at the start of `s`; on success
returns the matched substring and the remainder of `s`. -/
def matchDoubleAt : List Char → Option (List Char × List Char)
  | [] => none
  | [_] => none
  | c1 :: c2 :: cs =>
    if c1 = '{' ∧ c2 = '{' then
      match findClose cs with
      | some (p, r) => some ('{' :: '{' :: (p ++ ['}', '}']), r)
      | none => none
    else none

/- Second alternative `\{[^\{\}]+\}` tried at the start of `s`: a `{`, then a
maximal nonempty run of non-brace characters, then `}`. -/
def matchSingleAt : List Char → Option (List Char × List Char)
  | [] => none
  | c :: cs =>
    if c = '{' then
      let run := cs.takeWhile (fun ch => ¬ (ch = '{' ∨ ch = '}'))
      if run.length = 0 then none
      else
        match cs.drop run.length with
        | '}' :: r => some ('{' :: run ++ ['}'], r)
        | _ => none
    else none

/- The `re.sub` scan of `protect_placeholders` (lines 26-34): walk the string
left to right; at each position try the two alternatives in order; on a match
emit `__TOKEN_i__` (where `i` counts the placeholders found so far, starting
from `n`) and continue after the match, otherwise emit the character.  Returns
the safe text and the list of matched placeholder substrings.  The fuel
dominates the length of the remaining string, so the zero-fuel branch is never
reached by `protect_placeholders`. -/
def protectF : Nat → List Char → Nat → List Char × List (List Char)
  | 0, s, _ => (s, [])
  | fuel + 1, s, n =>
    match s with
    | [] => ([], [])
    | c :: cs =>
      match matchDoubleAt (c :: cs) with
      | some (m, rest) =>
        let r := protectF fuel rest (n + 1)
        (marker n ++ r.1, m :: r.2)
      | none =>
        match matchSingleAt (c :: cs) with
        | some (m, rest) =>
          let r := protectF fuel rest (n + 1)
          (marker n ++ r.1, m :: r.2)
        | none =>
          let r := protectF fuel cs n
          (c :: r.1, r.2)

/- `protect_placeholders` (lines 26-34). -/
def protect_placeholders (s : List Char) : List Char × List (List Char) :=
  protectF s.length s 0

/- Does some position of `s` match the placeholder pattern?  (Used to state
the "string with zero placeholders" edge case.) -/
def hasMatch : List Char → Bool
  | [] => false
  | c :: cs =>
    (matchDoubleAt (c :: cs)).isSome || (matchSingleAt (c :: cs)).isSome || hasMatch cs

/- Python `text.replace(old, new)`: replace every occurrence of `old`,
scanning left to right, non-overlapping.  The empty-pattern branch is
unreachable in this development (markers are never empty) and is given the
identity behaviour.  The fuel dominates the length of `s`. -/
def replaceAllF : Nat → List Char → List Char → List Char → List Char
  | 0, _, _, s => s
  | _ + 1, [], _, s => s
  | fuel + 1, p :: ps, repl, s =>
    match s with
    | [] => []
    | c :: cs =>
      if (p :: ps).isPrefixOf (c :: cs) then
        repl ++ replaceAllF fuel (p :: ps) repl ((c :: cs).drop (p :: ps).length)
      else
        c :: replaceAllF fuel (p :: ps) repl cs

def replaceAll (pat repl s : List Char) : List Char :=
  replaceAllF s.length pat repl s

/- The loop of `restore_placeholders` (lines 37-40) starting at index `i`:
`for idx, token in enumerate(tokens): text = text.replace(f"__TOKEN_{idx}__", token)`. -/
def restoreFrom : Nat → List (List Char) → List Char → List Char
  | _, [], text => text
  | i, t :: ts, text => restoreFrom (i + 1) ts (replaceAll (marker i) t text)

/- `restore_placeholders` (lines 37-40). -/
def restore_placeholders (text : List Char) (tokens : List (List Char)) : List Char :=
  restoreFrom 0 tokens text

/- § Facts about the decimal rendering. -/

/- The ten decimal digit characters. -/
def dchars : List Char := ['0', '1', '2', '3', '4', '5', '6', '7', '8', '9']

/- Decimal value of a digit character (left inverse of `digitChar`). -/
def digVal : Char → Nat
  | '0' => 0
  | '1' => 1
  | '2' => 2
  | '3' => 3
  | '4' => 4
  | '5' => 5
  | '6' => 6
  | '7' => 7
  | '8' => 8
  | _ => 9

/- Numeric value of a digit string, most significant digit first. -/
def numOf (l : List Char) : Nat :=
  l.foldl (fun a c => 10 * a + digVal c) 0

/- § Structure of the markers and where they can occur. -/

/- `NoTok s` : the string `s` does not contain the marker core `TOKEN_`. -/
def NoTok (s : List Char) : Prop := ¬ (TOKENPAT <:+: s)

/- § The chunk view of a protected string.

`renderTail k ps clast` is the not-yet-restored part of the safe text from
the k-th marker on: `c_k ++ marker k ++ c_(k+1) ++ marker (k+1) ++ ... ++ clast`,
where `ps = [(c_k, t_k), (c_(k+1), t_(k+1)), ...]` pairs each context chunk
with the original placeholder the following marker stands for.
`renderOrig ps clast` is the corresponding original text. -/
def renderTail : Nat → List (List Char × List Char) → List Char → List Char
  | _, [], clast => clast
  | k, (c, _) :: ps, clast => c ++ (marker k ++ renderTail (k + 1) ps clast)

def renderOrig : List (List Char × List Char) → List Char → List Char
  | [], clast => clast
  | (c, t) :: ps, clast => c ++ (t ++ renderOrig ps clast)

/- § The JSON data model and the tree translator.

A JSON-like value (spec §3): nested mappings, sequences, strings, numbers,
booleans, null.  Python dicts preserve insertion order, so a mapping is a
list of key-value pairs in order. -/
inductive JsonVal where
  | str (s : List Char)
  | num (n : Int)
  | bool (b : Bool)
  | null
  | arr (items : List JsonVal)
  | obj (entries : List (List Char × JsonVal))

/- The injected translation function bound to one target language:
`GoogleTranslator(source="en", target=lang_code)` with its `.target` field and
its `.translate` method, which may raise (modelled as `Except`). -/
structure Translator where
  target : List Char
  translate : List Char → Except (List Char) (List Char)

/- One warning printed by the `except` branch (line 57): it identifies the
original string, the target language, and the error. -/
structure Warn where
  original : List Char
  target : List Char
  message : List Char

/- The per-language cache: a Python dict keyed by `(value, translator.target)`
(line 49).  Newer entries are consed to the front; lookup scans from the
front. -/
abbrev Cache := List ((List Char × List Char) × List Char)

def lookupC : Cache → List Char × List Char → Option (List Char)
  | [], _ => none
  | (k, v) :: rest, key => if k = key then some v else lookupC rest key

/- Results of a traversal: the translated value(s), the updated cache, the
warnings emitted, and the original strings for which the injected translation
function was invoked, in order. -/
structure TRes where
  val : JsonVal
  cache : Cache
  warns : List Warn
  calls : List (List Char)

structure TResA where
  vals : List JsonVal
  cache : Cache
  warns : List Warn
  calls : List (List Char)

structure TResO where
  entries : List (List Char × JsonVal)
  cache : Cache
  warns : List Warn
  calls : List (List Char)

mutual
/- `translate_value` (lines 43-63): dicts map to dicts with the same keys in
order and recursively translated values; lists map elementwise; a string
consults the cache, otherwise guards placeholders, calls the translator
(falling back to the safe text and emitting a warning if it raises), restores
placeholders, stores the result in the cache; any other value is returned
unchanged. -/
def translate_value : JsonVal → Translator → Cache → TRes
  | .obj kvs, tr, cache =>
    let r := translateObj kvs tr cache
    ⟨.obj r.entries, r.cache, r.warns, r.calls⟩
  | .arr vs, tr, cache =>
    let r := translateArr vs tr cache
    ⟨.arr r.vals, r.cache, r.warns, r.calls⟩
  | .str s, tr, cache =>
    match lookupC cache (s, tr.target) with
    | some t => ⟨.str t, cache, [], []⟩
    | none =>
      match tr.translate (protect_placeholders s).1 with
      | .ok translated =>
        let final := restore_placeholders translated (protect_placeholders s).2
        ⟨.str final, ((s, tr.target), final) :: cache, [], [s]⟩
      | .error e =>
        let final := restore_placeholders (protect_placeholders s).1
          (protect_placeholders s).2
        ⟨.str final, ((s, tr.target), final) :: cache, [⟨s, tr.target, e⟩], [s]⟩
  | .num n, _, cache => ⟨.num n, cache, [], []⟩
  | .bool b, _, cache => ⟨.bool b, cache, [], []⟩
  | .null, _, cache => ⟨.null, cache, [], []⟩

def translateArr : List JsonVal → Translator → Cache → TResA
  | [], _, cache => ⟨[], cache, [], []⟩
  | v :: vs, tr, cache =>
    let r1 := translate_value v tr cache
    let r2 := translateArr vs tr r1.cache
    ⟨r1.val :: r2.vals, r2.cache, r1.warns ++ r2.warns, r1.calls ++ r2.calls⟩

def translateObj : List (List Char × JsonVal) → Translator → Cache → TResO
  | [], _, cache => ⟨[], cache, [], []⟩
  | (k, v) :: kvs, tr, cache =>
    let r1 := translate_value v tr cache
    let r2 := translateObj kvs tr r1.cache
    ⟨(k, r1.val) :: r2.entries, r2.cache, r1.warns ++ r2.warns, r1.calls ++ r2.calls⟩
end

mutual
/- Replace every string leaf by a function of itself, keeping the whole
structure (keys, order, lengths, non-string scalars) unchanged. -/
def mapStr (g : List Char → List Char) : JsonVal → JsonVal
  | .str s => .str (g s)
  | .num n => .num n
  | .bool b => .bool b
  | .null => .null
  | .arr vs => .arr (mapStrArr g vs)
  | .obj kvs => .obj (mapStrObj g kvs)

def mapStrArr (g : List Char → List Char) : List JsonVal → List JsonVal
  | [] => []
  | v :: vs => mapStr g v :: mapStrArr g vs

def mapStrObj (g : List Char → List Char) :
    List (List Char × JsonVal) → List (List Char × JsonVal)
  | [] => []
  | (k, v) :: kvs => (k, mapStr g v) :: mapStrObj g kvs
end

mutual
/- Structural equality up to string-leaf contents: same mapping keys in the
same order, same sequence lengths and order, identical non-string scalars. -/
def sameShape : JsonVal → JsonVal → Bool
  | .str _, .str _ => true
  | .num a, .num b => a == b
  | .bool a, .bool b => a == b
  | .null, .null => true
  | .arr xs, .arr ys => sameShapeArr xs ys
  | .obj xs, .obj ys => sameShapeObj xs ys
  | _, _ => false

def sameShapeArr : List JsonVal → List JsonVal → Bool
  | [], [] => true
  | x :: xs, y :: ys => sameShape x y && sameShapeArr xs ys
  | _, _ => false

def sameShapeObj : List (List Char × JsonVal) → List (List Char × JsonVal) → Bool
  | [], [] => true
  | (k1, v1) :: xs, (k2, v2) :: ys => k1 == k2 && sameShape v1 v2 && sameShapeObj xs ys
  | _, _ => false
end

mutual
/- The string leaves of a value, in traversal order. -/
def leaves : JsonVal → List (List Char)
  | .str s => [s]
  | .num _ => []
  | .bool _ => []
  | .null => []
  | .arr vs => leavesArr vs
  | .obj kvs => leavesObj kvs

def leavesArr : List JsonVal → List (List Char)
  | [] => []
  | v :: vs => leaves v ++ leavesArr vs

def leavesObj : List (List Char × JsonVal) → List (List Char)
  | [] => []
  | (_, v) :: kvs => leaves v ++ leavesObj kvs
end

mutual
/- Size of a value: bounds the recursion depth of `translate_value`. -/
def jsize : JsonVal → Nat
  | .str _ => 1
  | .num _ => 1
  | .bool _ => 1
  | .null => 1
  | .arr vs => jsizeArr vs + 1
  | .obj kvs => jsizeObj kvs + 1

def jsizeArr : List JsonVal → Nat
  | [] => 0
  | v :: vs => jsize v + jsizeArr vs

def jsizeObj : List (List Char × JsonVal) → Nat
  | [] => 0
  | (_, v) :: kvs => jsize v + jsizeObj kvs
end

/- Fuel-bounded variant of the tree walk: recursion into the children of a
mapping or sequence consumes one unit of fuel, and the walk reports `none`
when the fuel runs out.  Used to state that `translate_value` terminates with
recursion depth bounded by the size of the input. -/
def goArrFuel (g : JsonVal → Cache → Option TRes) : List JsonVal → Cache → Option TResA
  | [], c => some ⟨[], c, [], []⟩
  | v :: vs, c =>
    (g v c).bind fun r1 =>
      (goArrFuel g vs r1.cache).bind fun r2 =>
        some ⟨r1.val :: r2.vals, r2.cache, r1.warns ++ r2.warns, r1.calls ++ r2.calls⟩

def goObjFuel (g : JsonVal → Cache → Option TRes) :
    List (List Char × JsonVal) → Cache → Option TResO
  | [], c => some ⟨[], c, [], []⟩
  | (k, v) :: kvs, c =>
    (g v c).bind fun r1 =>
      (goObjFuel g kvs r1.cache).bind fun r2 =>
        some ⟨(k, r1.val) :: r2.entries, r2.cache, r1.warns ++ r2.warns, r1.calls ++ r2.calls⟩

def translateFuel : Nat → JsonVal → Translator → Cache → Option TRes
  | 0, _, _, _ => none
  | fuel + 1, v, tr, c =>
    match v with
    | .arr vs =>
      match goArrFuel (fun v' c' => translateFuel fuel v' tr c') vs c with
      | none => none
      | some r => some ⟨.arr r.vals, r.cache, r.warns, r.calls⟩
    | .obj kvs =>
      match goObjFuel (fun v' c' => translateFuel fuel v' tr c') kvs c with
      | none => none
      | some r => some ⟨.obj r.entries, r.cache, r.warns, r.calls⟩
    | other => some (translate_value other tr c)

/- § Cache discipline and the structure of the traversal. -/

/- `Extends c c'` : every cached entry of `c` is still present, unchanged, in
`c'`.  Entries are only ever added for keys not yet present, never
overwritten. -/
def Extends (c c' : Cache) : Prop :=
  ∀ k v, lookupC c k = some v → lookupC c' k = some v

/- § The CLI surface of `main` (lines 12-21 and 88-113). -/

def cl (s : String) : List Char := s.toList

/- `BUNDLED_LANGS` (lines 12-21): locale code ↦ translation-service language
code, in declaration order. -/
def BUNDLED_LANGS : List (List Char × List Char) :=
  [(cl "pl", cl "pl"), (cl "de", cl "de"), (cl "fr", cl "fr"), (cl "it", cl "it"),
    (cl "nl", cl "nl"), (cl "ar", cl "ar"), (cl "ja", cl "ja"), (cl "ko", cl "ko")]

def bundledKeys : List (List Char) := BUNDLED_LANGS.map Prod.fst

/- Assoc lookup, Python `BUNDLED_LANGS[code]`. -/
def lookupA : List (List Char × List Char) → List Char → Option (List Char)
  | [], _ => none
  | (k, v) :: rest, key => if k = key then some v else lookupA rest key

/- Iteration order of the keys of a dict built by inserting the given codes in
order: the first occurrence of a code wins its position and duplicates
collapse — the behaviour of `{code: BUNDLED_LANGS[code] for code in args.langs}`
(line 94). -/
def dedupFirst : List (List Char) → List (List Char) → List (List Char)
  | _, [] => []
  | seen, x :: xs =>
    if x ∈ seen then dedupFirst seen xs else x :: dedupFirst (x :: seen) xs

/- Python `", ".join(missing)` (line 93). -/
def joinComma : List (List Char) → List Char
  | [] => []
  | x :: xs =>
    match xs with
    | [] => x
    | _ :: _ => x ++ (cl ", " ++ joinComma xs)

/- The language-selection logic of `main` (lines 90-96).  When `--langs` is
provided and nonempty, compute the codes missing from `BUNDLED_LANGS`;
if there are any, abort with a `ValueError` naming them — before the source
file is read, before any translator is constructed and before any output
path is touched (lines 98-111 run only after this check).  Otherwise build
the target mapping `{code: BUNDLED_LANGS[code] for code in args.langs}`.
An absent (or empty, since `if args.langs:` tests truthiness) list selects
every configured language. -/
def main_select (langs : Option (List (List Char))) :
    Except (List Char) (List (List Char × List Char)) :=
  match langs with
  | none => .ok BUNDLED_LANGS
  | some [] => .ok BUNDLED_LANGS
  | some (l :: ls) =>
    if ((l :: ls).filter (fun code => decide (code ∉ bundledKeys))).isEmpty then
      .ok ((dedupFirst [] (l :: ls)).map
        (fun code => (code, (lookupA BUNDLED_LANGS code).getD [])))
    else
      .error (cl "Unsupported locale codes: "
        ++ joinComma ((l :: ls).filter (fun code => decide (code ∉ bundledKeys))))

/- The output files written by a successful run (line 109): one
`<locale>.json` per entry of the selected target mapping, in order; a failed
selection writes none. -/
def outputFiles (langs : Option (List (List Char))) :
    Except (List Char) (List (List Char)) :=
  (main_select langs).map (fun tl => tl.map (fun p => p.1 ++ cl ".json"))

/- A string that collides with the very first marker: `__TOKEN_0__{x}`. -/
def collideS : List Char := marker 0 ++ ['{', 'x', '}']

/- A translator whose service call always raises. -/
def failTr : Translator := ⟨cl "de", fun _ => .error (cl "boom")⟩

/- A translator that uppercases the safe text (spec §8, end-to-end example). -/
def upperTr : Translator := ⟨cl "de", fun s => .ok (s.map Char.toUpper)⟩

/- The source document of the end-to-end example:
`{"greeting": "Hello {{name}}", "count": 3}`. -/
def exampleDoc : JsonVal :=
  .obj [(cl "greeting", .str (cl "Hello " ++ ['{', '{'] ++ cl "name" ++ ['}', '}'])),
    (cl "count", .num 3)]

/- The value the `except` branch of `translate_value` (lines 57-60) produces
for a string `s`: its safe text with the placeholders restored. -/
def fallback (s : List Char) : List Char :=
  restore_placeholders (protect_placeholders s).1 (protect_placeholders s).2

/- A later fragment of a document, containing a fresh string and another
occurrence of the string `"Hi {x}"` on which `failTr` has already failed. -/
def failDoc : JsonVal :=
  .arr [.str (cl "ok"), .str (cl "Hi " ++ ['{', 'x', '}'])]

/- `segs` interleaved with the separator `m`:
`joinWith m [a, b, c] = a ++ m ++ b ++ m ++ c`, one occurrence of `m` per
junction, for any number of segments. -/
def joinWith (m : List Char) : List (List Char) → List Char
  | [] => []
  | [a] => a
  | a :: rest => a ++ (m ++ joinWith m rest)

/- The separation condition on `joinWith m segs`: no occurrence of `m`
starts strictly inside a segment (or straddles a junction), so the explicit
separators are exactly the occurrences of `m` in the joined text.
Bool-valued so that a concrete instance evaluates. -/
def sepOK (m : List Char) : List (List Char) → Bool
  | [] => true
  | [a] => decide (∀ q, q < a.length → ¬ m.isPrefixOf (a.drop q))
  | a :: rest =>
      decide (∀ q, q < a.length →
          ¬ m.isPrefixOf ((a ++ (m ++ joinWith m rest)).drop q))
        && sepOK m rest

theorem digitChar_mem_dchars (n : Nat) : digitChar n ∈ dchars := by
  unfold digitChar
  split <;> decide

theorem digVal_digitChar {n : Nat} (h : n < 10) : digVal (digitChar n) = n := by
  interval_cases n <;> decide

theorem numOf_append_singleton (l : List Char) (c : Char) :
    numOf (l ++ [c]) = 10 * numOf l + digVal c := by
  simp [numOf]

theorem natCharsF_mem_dchars :
    ∀ fuel n c, c ∈ natCharsF fuel n → c ∈ dchars := by
  intro fuel
  induction fuel with
  | zero => intro n c h; simp [natCharsF] at h
  | succ f ih =>
    intro n c h
    by_cases h10 : n < 10
    · simp [natCharsF, h10] at h
      rw [h]
      exact digitChar_mem_dchars n
    · simp only [natCharsF, if_neg h10, List.mem_append, List.mem_singleton] at h
      rcases h with h | h
      · exact ih _ _ h
      · rw [h]; exact digitChar_mem_dchars _

theorem natChars_mem_dchars {n : Nat} {c : Char} (h : c ∈ natChars n) : c ∈ dchars :=
  natCharsF_mem_dchars _ _ _ h

theorem natCharsF_ne_nil : ∀ fuel n, n < fuel → natCharsF fuel n ≠ [] := by
  intro fuel
  induction fuel with
  | zero => intro n h; omega
  | succ f ih =>
    intro n _
    by_cases h10 : n < 10
    · simp [natCharsF, h10]
    · simp only [natCharsF, if_neg h10]
      exact fun h => by simpa using congrArg List.length h

theorem natChars_ne_nil (n : Nat) : natChars n ≠ [] :=
  natCharsF_ne_nil _ _ (Nat.lt_succ_self n)

theorem numOf_natCharsF : ∀ fuel n, n < fuel → numOf (natCharsF fuel n) = n := by
  intro fuel
  induction fuel with
  | zero => intro n h; omega
  | succ f ih =>
    intro n hn
    by_cases h10 : n < 10
    · simp [natCharsF, h10, numOf, digVal_digitChar h10]
    · have hdiv : n / 10 < f := by
        have h1 : n / 10 < n := Nat.div_lt_self (by omega) (by omega)
        omega
      simp only [natCharsF, if_neg h10]
      rw [numOf_append_singleton, ih _ hdiv, digVal_digitChar (Nat.mod_lt _ (by omega))]
      omega

theorem natChars_injective {a b : Nat} (h : natChars a = natChars b) : a = b := by
  have ha := numOf_natCharsF (a + 1) a (Nat.lt_succ_self a)
  have hb := numOf_natCharsF (b + 1) b (Nat.lt_succ_self b)
  rw [show natCharsF (a + 1) a = natChars a from rfl] at ha
  rw [show natCharsF (b + 1) b = natChars b from rfl] at hb
  rw [h, hb] at ha
  omega

/- § Generic list lemmas: prefixes, infixes, and occurrences. -/

theorem pfxShort {x a y : List Char} (h : x <+: a ++ y) (hl : x.length ≤ a.length) :
    x <+: a := by
  rw [List.prefix_iff_eq_take] at h
  rw [List.take_append_eq_append_take, Nat.sub_eq_zero_of_le hl, List.take_zero,
    List.append_nil] at h
  rw [h]
  exact List.take_prefix _ _

theorem pfxSplit {x a y : List Char} (h : x <+: a ++ y) (hl : a.length ≤ x.length) :
    a <+: x ∧ x.drop a.length <+: y := by
  have hx : x = (a ++ y).take x.length := List.prefix_iff_eq_take.mp h
  constructor
  · rw [List.prefix_iff_eq_take]
    rw [hx, List.take_take, Nat.min_eq_left hl, List.take_left]
  · rw [hx, List.drop_take, List.drop_left]
    exact List.take_prefix _ _

/- A prefix of `l.drop q` is an infix of `l`. -/
theorem infix_of_pfx_drop {p l : List Char} {q : Nat} (h : p <+: l.drop q) : p <:+: l :=
  h.isInfix.trans (List.drop_suffix q l).isInfix

theorem infix_append_left {p a b : List Char} (h : p <:+: a) : p <:+: a ++ b :=
  h.trans (List.prefix_append a b).isInfix

theorem infix_append_right {p a b : List Char} (h : p <:+: b) : p <:+: a ++ b :=
  h.trans (List.suffix_append a b).isInfix

/- Decompose an occurrence inside an append: it lies in the left part, in the
right part, or straddles the boundary. -/
theorem infixSplit :
    ∀ (a p b : List Char), p <:+: a ++ b →
      p <:+: a ∨ p <:+: b ∨
        ∃ p₁ p₂, p = p₁ ++ p₂ ∧ p₁ ≠ [] ∧ p₂ ≠ [] ∧ p₁ <:+ a ∧ p₂ <+: b := by
  intro a
  induction a with
  | nil => intro p b h; right; left; simpa using h
  | cons x a' ih =>
    intro p b h
    rw [List.cons_append, List.infix_cons_iff] at h
    rcases h with h | h
    · by_cases hl : p.length ≤ (x :: a').length
      · left
        exact (pfxShort (a := x :: a') (y := b) h hl).isInfix
      · have hsp := pfxSplit (a := x :: a') (y := b) h (by simp at hl ⊢; omega)
        right; right
        refine ⟨x :: a', p.drop (x :: a').length, ?_, by simp, ?_, List.suffix_refl _, hsp.2⟩
        · have := List.prefix_iff_eq_take.mp hsp.1
          conv_lhs => rw [← List.take_append_drop (x :: a').length p]
          rw [← this]
        · intro hnil
          have hd : p.length ≤ (x :: a').length := by
            have := congrArg List.length hnil
            simp at this
            simp
            omega
          exact hl hd
    · rcases ih p b h with h' | h' | ⟨p₁, p₂, hp, h1, h2, h3, h4⟩
      · left
        exact h'.trans (List.suffix_cons x a').isInfix
      · right; left; exact h'
      · right; right
        exact ⟨p₁, p₂, hp, h1, h2, h3.trans (List.suffix_cons x a'), h4⟩

/- § Facts about `replaceAll`. -/

theorem replaceAllF_nil (fuel : Nat) (pat repl : List Char) :
    replaceAllF fuel pat repl [] = [] := by
  cases fuel with
  | zero => rfl
  | succ f => cases pat <;> rfl

theorem replaceAllF_congr :
    ∀ (f g : Nat) (pat repl s : List Char), s.length ≤ f → s.length ≤ g →
      replaceAllF f pat repl s = replaceAllF g pat repl s := by
  intro f
  induction f with
  | zero =>
    intro g pat repl s hf _
    have hs : s = [] := List.length_eq_zero.mp (by omega)
    rw [hs]
    exact (replaceAllF_nil _ _ _).trans (replaceAllF_nil _ _ _).symm
  | succ f ih =>
    intro g pat repl s hf hg
    cases s with
    | nil => rw [replaceAllF_nil, replaceAllF_nil]
    | cons c cs =>
      cases g with
      | zero => simp at hg
      | succ g' =>
        cases pat with
        | nil => rfl
        | cons p ps =>
          simp only [replaceAllF]
          by_cases hp : (p :: ps).isPrefixOf (c :: cs)
          · rw [if_pos hp, if_pos hp]
            rw [ih g' _ _ _ (by simp at hf ⊢; omega) (by simp at hg ⊢; omega)]
          · rw [if_neg hp, if_neg hp]
            rw [ih g' _ _ _ (by simp at hf ⊢; omega) (by simp at hg ⊢; omega)]

theorem replaceAll_nil (pat repl : List Char) : replaceAll pat repl [] = [] := rfl

/- One-step unfolding of `replaceAllF` on a cons cell (holds by definition). -/
theorem replaceAllF_cons (fuel : Nat) (p : Char) (ps repl : List Char) (c : Char)
    (cs : List Char) :
    replaceAllF (fuel + 1) (p :: ps) repl (c :: cs) =
      if (p :: ps).isPrefixOf (c :: cs) then
        repl ++ replaceAllF fuel (p :: ps) repl ((c :: cs).drop (p :: ps).length)
      else c :: replaceAllF fuel (p :: ps) repl cs := rfl

theorem replaceAll_cons_neg {pat : List Char} {c : Char} {cs : List Char} (repl : List Char)
    (h : ¬ pat.isPrefixOf (c :: cs)) :
    replaceAll pat repl (c :: cs) = c :: replaceAll pat repl cs := by
  cases pat with
  | nil => exact absurd rfl h
  | cons p ps =>
    show replaceAllF (cs.length + 1) _ _ _ = _
    rw [replaceAllF_cons, if_neg h]
    rfl

theorem replaceAll_hit {pat : List Char} (hne : pat ≠ []) (repl X : List Char) :
    replaceAll pat repl (pat ++ X) = repl ++ replaceAll pat repl X := by
  cases pat with
  | nil => exact absurd rfl hne
  | cons p ps =>
    have e : ((p :: ps) ++ X).length = (ps ++ X).length + 1 := by simp
    unfold replaceAll
    rw [e]
    show replaceAllF ((ps ++ X).length + 1) (p :: ps) repl (p :: (ps ++ X)) = _
    rw [replaceAllF_cons]
    rw [if_pos (show ((p :: ps).isPrefixOf (p :: (ps ++ X))) = true from
      List.isPrefixOf_iff_prefix.mpr (List.prefix_append (p :: ps) X))]
    have hdrop : (p :: (ps ++ X)).drop (p :: ps).length = X := by
      show (ps ++ X).drop ps.length = X
      exact List.drop_left ps X
    rw [hdrop, replaceAllF_congr _ X.length _ _ _ (by simp) (le_refl _)]

/- If no occurrence of `pat` starts anywhere in `s`, replacement is the
identity. -/
theorem replaceAll_id {pat : List Char} (repl : List Char) :
    ∀ s : List Char, (∀ q, ¬ pat.isPrefixOf (s.drop q)) → replaceAll pat repl s = s := by
  intro s
  induction s with
  | nil => intro _; rfl
  | cons c cs ih =>
    intro h
    rw [replaceAll_cons_neg repl (by simpa using h 0)]
    rw [ih (fun q => by simpa using h (q + 1))]

/- If no occurrence of `pat` starts strictly inside the prefix `a`, the
replacement distributes over the append. -/
theorem replaceAll_split {pat : List Char} (repl : List Char) :
    ∀ (a X : List Char), (∀ q, q < a.length → ¬ pat.isPrefixOf ((a ++ X).drop q)) →
      replaceAll pat repl (a ++ X) = a ++ replaceAll pat repl X := by
  intro a
  induction a with
  | nil => intro X _; rfl
  | cons c a' ih =>
    intro X h
    rw [List.cons_append]
    rw [replaceAll_cons_neg repl (by simpa using h 0 (by simp))]
    rw [ih X (fun q hq => by simpa using h (q + 1) (by simp; omega))]
    rfl

theorem NoTok.mono {x y : List Char} (hxy : x <:+: y) (hy : NoTok y) : NoTok x :=
  fun h => hy (h.trans hxy)

theorem marker_eq (n : Nat) :
    marker n = ['_', '_'] ++ TOKENPAT ++ (natChars n ++ ['_', '_']) := rfl

theorem tokenpat_infix_marker (n : Nat) : TOKENPAT <:+: marker n :=
  ⟨['_', '_'], natChars n ++ ['_', '_'], rfl⟩

theorem closeBrace_not_mem_marker (n : Nat) : '}' ∉ marker n := by
  intro h
  rw [marker_eq] at h
  rcases List.mem_append.mp h with h | h
  · exact absurd h (by decide)
  · rcases List.mem_append.mp h with h | h
    · exact absurd (natChars_mem_dchars h) (by decide)
    · exact absurd h (by decide)

theorem marker_length (n : Nat) : (marker n).length = (natChars n).length + 10 := by
  simp [marker]

theorem marker_take8 (n : Nat) : (marker n).take 8 = ['_', '_'] ++ TOKENPAT := rfl

theorem tokenpat_infix_pre8 : TOKENPAT <:+: ['_', '_'] ++ TOKENPAT :=
  ⟨['_', '_'], [], by simp⟩

/- Peeling tools for prefixes of cons cells. -/
theorem not_pfx_char {a b : Char} {l1 l2 : List Char} (hne : a ≠ b) :
    ¬ (a :: l1 <+: b :: l2) :=
  fun h => hne (List.cons_prefix_cons.mp h).1

theorem pfx_tail {a b : Char} {l1 l2 : List Char} (h : a :: l1 <+: b :: l2) : l1 <+: l2 :=
  (List.cons_prefix_cons.mp h).2

/- A digit string followed by `'_'` determines the digit string: decimal
digits never contain `'_'`. -/
theorem digitSep :
    ∀ (d1 d2 r1 r2 : List Char), (∀ c ∈ d1, c ∈ dchars) → (∀ c ∈ d2, c ∈ dchars) →
      d1 ++ '_' :: r1 = d2 ++ '_' :: r2 → d1 = d2 := by
  intro d1
  induction d1 with
  | nil =>
    intro d2 r1 r2 _ h2 he
    cases d2 with
    | nil => rfl
    | cons b d2' =>
      simp only [List.nil_append, List.cons_append, List.cons.injEq] at he
      have hb := h2 b (by simp)
      rw [← he.1] at hb
      simp [dchars] at hb
  | cons a d1' ih =>
    intro d2 r1 r2 h1 h2 he
    cases d2 with
    | nil =>
      simp only [List.nil_append, List.cons_append, List.cons.injEq] at he
      have ha := h1 a (by simp)
      rw [he.1] at ha
      simp [dchars] at ha
    | cons b d2' =>
      simp only [List.cons_append, List.cons.injEq] at he
      rw [he.1,
        ih d2' r1 r2 (fun c hc => h1 c (by simp [hc])) (fun c hc => h2 c (by simp [hc])) he.2]

/- A marker that is a prefix of another marker (followed by anything) has the
same index. -/
theorem marker_pfx_marker {j k : Nat} {R : List Char}
    (h : marker j <+: marker k ++ R) : j = k := by
  obtain ⟨r, hr⟩ := h
  rw [marker_eq, marker_eq] at hr
  simp only [List.append_assoc, List.cons_append, List.nil_append, List.cons.injEq,
    true_and] at hr
  have hc := List.append_cancel_left hr
  exact natChars_injective
    (digitSep _ _ _ _ (fun c hmem => natChars_mem_dchars hmem)
      (fun c hmem => natChars_mem_dchars hmem) hc)

theorem marker_append_cons (n : Nat) (R : List Char) :
    marker n ++ R
      = '_' :: '_' :: 'T' :: 'O' :: 'K' :: 'E' :: 'N' :: '_'
          :: ((natChars n ++ ['_', '_']) ++ R) := by
  simp [marker]

/- No string of the shape `TOKEN_` + digit + anything is a prefix of a
render tail: context chunks do not contain `TOKEN_`, and a marker starts
with underscores, not with `T`. -/
theorem sub1 (ps : List (List Char × List Char)) (n : Nat) (clast : List Char) (d : Char)
    (r : List Char) (hctx : ∀ p ∈ ps, NoTok p.1) (hcl : NoTok clast) (hd : d ∈ dchars) :
    ¬ (TOKENPAT ++ d :: r <+: renderTail n ps clast) := by
  intro h
  cases ps with
  | nil =>
    exact hcl ((List.prefix_append TOKENPAT (d :: r)).trans h).isInfix
  | cons p ps' =>
    obtain ⟨c, t⟩ := p
    rw [renderTail] at h
    have hcNoTok : NoTok c := hctx (c, t) (by simp)
    by_cases hlen : 6 ≤ c.length
    · have h6 : TOKENPAT <+: c ++ (marker n ++ renderTail (n + 1) ps' clast) :=
        (List.prefix_append TOKENPAT (d :: r)).trans h
      exact hcNoTok (pfxShort h6 (by simpa [TOKENPAT] using hlen)).isInfix
    · have hsp := pfxSplit (x := TOKENPAT ++ d :: r) (a := c)
        (y := marker n ++ renderTail (n + 1) ps' clast) h (by simp [TOKENPAT]; omega)
      have hdrop := hsp.2
      rw [marker_append_cons] at hdrop
      have h5 : c.length ≤ 5 := by omega
      obtain ⟨m, hm⟩ : ∃ m, c.length = m := ⟨_, rfl⟩
      rw [hm] at hdrop h5
      have e0 : TOKENPAT ++ d :: r = 'T' :: 'O' :: 'K' :: 'E' :: 'N' :: '_' :: d :: r := rfl
      rw [e0] at hdrop
      interval_cases m
      · exact absurd hdrop (not_pfx_char (by decide))
      · exact absurd hdrop (not_pfx_char (by decide))
      · exact absurd hdrop (not_pfx_char (by decide))
      · exact absurd hdrop (not_pfx_char (by decide))
      · exact absurd hdrop (not_pfx_char (by decide))
      · have h2 := pfx_tail hdrop
        have hde := (List.cons_prefix_cons.mp h2).1
        rw [hde] at hd
        exact absurd hd (by decide)

/- Likewise for `_TOKEN_` + digit + anything. -/
theorem sub2 (ps : List (List Char × List Char)) (n : Nat) (clast : List Char) (d : Char)
    (r : List Char) (hctx : ∀ p ∈ ps, NoTok p.1) (hcl : NoTok clast) (hd : d ∈ dchars) :
    ¬ ('_' :: (TOKENPAT ++ d :: r) <+: renderTail n ps clast) := by
  intro h
  cases ps with
  | nil =>
    have hsub : TOKENPAT <+: TOKENPAT ++ d :: r := List.prefix_append _ _
    have : TOKENPAT <:+: '_' :: (TOKENPAT ++ d :: r) :=
      hsub.isInfix.trans (List.suffix_cons '_' _).isInfix
    exact hcl (this.trans h.isInfix)
  | cons p ps' =>
    obtain ⟨c, t⟩ := p
    rw [renderTail] at h
    have hcNoTok : NoTok c := hctx (c, t) (by simp)
    by_cases hlen : 7 ≤ c.length
    · have h7 : '_' :: TOKENPAT <+: c ++ (marker n ++ renderTail (n + 1) ps' clast) := by
        refine List.IsPrefix.trans ?_ h
        refine ⟨d :: r, ?_⟩
        simp
      have hin : TOKENPAT <:+: c := by
        have hp := pfxShort h7 (by simpa [TOKENPAT] using hlen)
        exact ((List.suffix_cons '_' TOKENPAT).isInfix.trans hp.isInfix)
      exact hcNoTok hin
    · have hsp := pfxSplit (x := '_' :: (TOKENPAT ++ d :: r)) (a := c)
        (y := marker n ++ renderTail (n + 1) ps' clast) h (by simp [TOKENPAT]; omega)
      have hdrop := hsp.2
      rw [marker_append_cons] at hdrop
      have h6 : c.length ≤ 6 := by omega
      obtain ⟨m, hm⟩ : ∃ m, c.length = m := ⟨_, rfl⟩
      rw [hm] at hdrop h6
      have e0 : '_' :: (TOKENPAT ++ d :: r)
          = '_' :: 'T' :: 'O' :: 'K' :: 'E' :: 'N' :: '_' :: d :: r := rfl
      rw [e0] at hdrop
      interval_cases m
      · exact absurd (pfx_tail hdrop) (not_pfx_char (by decide))
      · exact absurd hdrop (not_pfx_char (by decide))
      · exact absurd hdrop (not_pfx_char (by decide))
      · exact absurd hdrop (not_pfx_char (by decide))
      · exact absurd hdrop (not_pfx_char (by decide))
      · exact absurd hdrop (not_pfx_char (by decide))
      · have h2 := pfx_tail hdrop
        have hde := (List.cons_prefix_cons.mp h2).1
        rw [hde] at hd
        exact absurd hd (by decide)

/- Where can a marker occur inside a render tail?  Only at the start of a
marker chunk with the same index.  Consequently markers with index below `k`
do not occur at all in `renderTail k`, and `marker k` occurs exactly once,
right after the first context chunk. -/
theorem occPos :
    ∀ (ps : List (List Char × List Char)) (k j q : Nat) (clast : List Char),
      (∀ p ∈ ps, NoTok p.1) → NoTok clast →
      marker j <+: (renderTail k ps clast).drop q →
      k ≤ j ∧ (j = k → ∃ c t ps', ps = (c, t) :: ps' ∧ q = c.length) := by
  intro ps
  induction ps with
  | nil =>
    intro k j q clast _ hcl h
    exact absurd ((tokenpat_infix_marker j).trans (infix_of_pfx_drop h)) hcl
  | cons hd0 ps' ih =>
    obtain ⟨c, t⟩ := hd0
    intro k j q clast hctx hcl h
    have hcNoTok : NoTok c := hctx (c, t) (by simp)
    have hctx' : ∀ p ∈ ps', NoTok p.1 := fun p hp => hctx p (by simp [hp])
    rw [renderTail] at h
    by_cases hq1 : q < c.length
    · -- the occurrence would start inside the context chunk `c`
      exfalso
      rw [List.drop_append_eq_append_drop, Nat.sub_eq_zero_of_le (le_of_lt hq1),
        List.drop_zero] at h
      by_cases ho8 : 8 ≤ (c.drop q).length
      · have hpre : (['_', '_'] ++ TOKENPAT) <+: c.drop q := by
          have h1 : (marker j).take 8 <+: marker j := List.take_prefix _ _
          have h2 := h1.trans h
          rw [marker_take8] at h2
          exact pfxShort h2 (by simpa using ho8)
        exact hcNoTok
          ((tokenpat_infix_pre8.trans hpre.isInfix).trans (List.drop_suffix q c).isInfix)
      · have hL7 : (c.drop q).length ≤ 7 := by omega
        have hL1 : 1 ≤ (c.drop q).length := by
          have := List.length_drop q c
          omega
        have hsp := pfxSplit (x := marker j) (a := c.drop q)
          (y := marker k ++ renderTail (k + 1) ps' clast) h
          (by rw [marker_length]; omega)
        have hdrop := hsp.2
        rw [marker_append_cons] at hdrop
        obtain ⟨m, hm⟩ : ∃ m, (c.drop q).length = m := ⟨_, rfl⟩
        rw [hm] at hdrop hL7 hL1
        interval_cases m
        · rw [show (marker j).drop 1
              = '_' :: 'T' :: 'O' :: 'K' :: 'E' :: 'N' :: '_' :: (natChars j ++ ['_', '_'])
            from rfl] at hdrop
          exact absurd (pfx_tail hdrop) (not_pfx_char (by decide))
        · rw [show (marker j).drop 2
              = 'T' :: 'O' :: 'K' :: 'E' :: 'N' :: '_' :: (natChars j ++ ['_', '_'])
            from rfl] at hdrop
          exact absurd hdrop (not_pfx_char (by decide))
        · rw [show (marker j).drop 3
              = 'O' :: 'K' :: 'E' :: 'N' :: '_' :: (natChars j ++ ['_', '_']) from rfl] at hdrop
          exact absurd hdrop (not_pfx_char (by decide))
        · rw [show (marker j).drop 4
              = 'K' :: 'E' :: 'N' :: '_' :: (natChars j ++ ['_', '_']) from rfl] at hdrop
          exact absurd hdrop (not_pfx_char (by decide))
        · rw [show (marker j).drop 5
              = 'E' :: 'N' :: '_' :: (natChars j ++ ['_', '_']) from rfl] at hdrop
          exact absurd hdrop (not_pfx_char (by decide))
        · rw [show (marker j).drop 6
              = 'N' :: '_' :: (natChars j ++ ['_', '_']) from rfl] at hdrop
          exact absurd hdrop (not_pfx_char (by decide))
        · rw [show (marker j).drop 7 = '_' :: (natChars j ++ ['_', '_']) from rfl] at hdrop
          have h2 := pfx_tail hdrop
          obtain ⟨d0, D', hD⟩ := List.exists_cons_of_ne_nil (natChars_ne_nil j)
          rw [hD, List.cons_append] at h2
          have hd0 : d0 = '_' := (List.cons_prefix_cons.mp h2).1
          have hmem : d0 ∈ dchars := natChars_mem_dchars (by rw [hD]; exact List.mem_cons_self _ _)
          rw [hd0] at hmem
          exact absurd hmem (by decide)
    · -- the occurrence starts at or after the marker chunk
      have hq1' : c.length ≤ q := by omega
      rw [List.drop_append_eq_append_drop, List.drop_eq_nil_of_le hq1', List.nil_append] at h
      obtain ⟨p, hp⟩ : ∃ p, q - c.length = p := ⟨_, rfl⟩
      rw [hp] at h
      by_cases hp0 : p = 0
      · rw [hp0, List.drop_zero] at h
        have hjk := marker_pfx_marker h
        exact ⟨by omega, fun _ => ⟨c, t, ps', rfl, by omega⟩⟩
      · by_cases hpm : p < (marker k).length
        · exfalso
          rw [List.drop_append_eq_append_drop, Nat.sub_eq_zero_of_le (le_of_lt hpm),
            List.drop_zero] at h
          rw [show marker j
              = '_' :: '_' :: 'T' :: 'O' :: 'K' :: 'E' :: 'N' :: '_'
                  :: (natChars j ++ ['_', '_']) from rfl] at h
          by_cases hp7 : p ≤ 7
          · have hp1 : 1 ≤ p := by omega
            interval_cases p
            · rw [show (marker k).drop 1
                  = '_' :: 'T' :: 'O' :: 'K' :: 'E' :: 'N' :: '_' :: (natChars k ++ ['_', '_'])
                from rfl, List.cons_append] at h
              exact absurd (pfx_tail h) (not_pfx_char (by decide))
            · rw [show (marker k).drop 2
                  = 'T' :: 'O' :: 'K' :: 'E' :: 'N' :: '_' :: (natChars k ++ ['_', '_'])
                from rfl, List.cons_append] at h
              exact absurd h (not_pfx_char (by decide))
            · rw [show (marker k).drop 3
                  = 'O' :: 'K' :: 'E' :: 'N' :: '_' :: (natChars k ++ ['_', '_'])
                from rfl, List.cons_append] at h
              exact absurd h (not_pfx_char (by decide))
            · rw [show (marker k).drop 4
                  = 'K' :: 'E' :: 'N' :: '_' :: (natChars k ++ ['_', '_'])
                from rfl, List.cons_append] at h
              exact absurd h (not_pfx_char (by decide))
            · rw [show (marker k).drop 5
                  = 'E' :: 'N' :: '_' :: (natChars k ++ ['_', '_'])
                from rfl, List.cons_append] at h
              exact absurd h (not_pfx_char (by decide))
            · rw [show (marker k).drop 6
                  = 'N' :: '_' :: (natChars k ++ ['_', '_'])
                from rfl, List.cons_append] at h
              exact absurd h (not_pfx_char (by decide))
            · rw [show (marker k).drop 7 = '_' :: (natChars k ++ ['_', '_']) from rfl,
                List.cons_append] at h
              have h2 := pfx_tail h
              obtain ⟨e0, E', hE⟩ := List.exists_cons_of_ne_nil (natChars_ne_nil k)
              rw [hE, List.cons_append, List.cons_append] at h2
              have he0 := (List.cons_prefix_cons.mp h2).1
              have hmem : e0 ∈ dchars :=
                natChars_mem_dchars (by rw [hE]; exact List.mem_cons_self _ _)
              rw [← he0] at hmem
              exact absurd hmem (by decide)
          · -- p ≥ 8 : inside the digits or the trailing underscores
            obtain ⟨m2, hm2⟩ : ∃ m2, p = 8 + m2 := ⟨p - 8, by omega⟩
            rw [hm2] at h hpm
            have e8 : (marker k).drop (8 + m2) = (natChars k ++ ['_', '_']).drop m2 := by
              rw [← List.drop_drop]
              rfl
            rw [e8] at h
            rw [marker_length] at hpm
            rcases Nat.lt_trichotomy m2 (natChars k).length with hL | hL | hL
            · rw [List.drop_append_eq_append_drop, Nat.sub_eq_zero_of_le (le_of_lt hL),
                List.drop_zero] at h
              have hne : (natChars k).drop m2 ≠ [] := by
                intro hx
                have := congrArg List.length hx
                simp at this
                omega
              obtain ⟨e0, E', hE⟩ := List.exists_cons_of_ne_nil hne
              rw [hE, List.cons_append, List.cons_append] at h
              have he0 := (List.cons_prefix_cons.mp h).1
              have hmem : e0 ∈ dchars :=
                natChars_mem_dchars (List.drop_subset m2 (natChars k)
                  (by rw [hE]; exact List.mem_cons_self _ _))
              rw [← he0] at hmem
              exact absurd hmem (by decide)
            · have e2 : (natChars k ++ ['_', '_']).drop m2 = ['_', '_'] := by
                rw [hL]
                exact List.drop_left _ _
              rw [e2, show (['_', '_'] : List Char) ++ renderTail (k + 1) ps' clast
                  = '_' :: '_' :: renderTail (k + 1) ps' clast from rfl] at h
              have h2 := pfx_tail (pfx_tail h)
              obtain ⟨d0, D', hD⟩ := List.exists_cons_of_ne_nil (natChars_ne_nil j)
              refine sub1 ps' (k + 1) clast d0 (D' ++ ['_', '_']) hctx' hcl
                (natChars_mem_dchars (by rw [hD]; exact List.mem_cons_self _ _)) ?_
              have hshape : ('T' : Char) :: 'O' :: 'K' :: 'E' :: 'N' :: '_'
                  :: (natChars j ++ ['_', '_'])
                  = TOKENPAT ++ d0 :: (D' ++ ['_', '_']) := by
                rw [hD]
                rfl
              rw [hshape] at h2
              exact h2
            · have hm2L : m2 = (natChars k).length + 1 := by omega
              have e2 : (natChars k ++ ['_', '_']).drop m2 = ['_'] := by
                rw [hm2L, List.drop_append_eq_append_drop,
                  List.drop_eq_nil_of_le (by omega), List.nil_append,
                  Nat.add_sub_cancel_left]
                rfl
              rw [e2, show (['_'] : List Char) ++ renderTail (k + 1) ps' clast
                  = '_' :: renderTail (k + 1) ps' clast from rfl] at h
              have h2 := pfx_tail h
              obtain ⟨d0, D', hD⟩ := List.exists_cons_of_ne_nil (natChars_ne_nil j)
              refine sub2 ps' (k + 1) clast d0 (D' ++ ['_', '_']) hctx' hcl
                (natChars_mem_dchars (by rw [hD]; exact List.mem_cons_self _ _)) ?_
              have hshape : ('_' : Char) :: 'T' :: 'O' :: 'K' :: 'E' :: 'N' :: '_'
                  :: (natChars j ++ ['_', '_'])
                  = '_' :: (TOKENPAT ++ d0 :: (D' ++ ['_', '_'])) := by
                rw [hD]
                rfl
              rw [hshape] at h2
              exact h2
        · -- beyond the marker chunk: recurse into the tail
          have hpm' : (marker k).length ≤ p := by omega
          rw [List.drop_append_eq_append_drop, List.drop_eq_nil_of_le hpm',
            List.nil_append] at h
          have hres := ih (k + 1) j (p - (marker k).length) clast hctx' hcl h
          exact ⟨by omega, fun hjk => absurd hres.1 (by omega)⟩

/- § Restoring over the chunk view. -/

/- Replacing `marker k` in `c_k ++ marker k ++ tail` hits exactly the
intended marker: it puts the token in its place and leaves everything else
alone. -/
theorem stepEq (k : Nat) (c t : List Char) (ps' : List (List Char × List Char))
    (clast : List Char) (hc : NoTok c) (hctx' : ∀ p ∈ ps', NoTok p.1) (hcl : NoTok clast) :
    replaceAll (marker k) t (c ++ (marker k ++ renderTail (k + 1) ps' clast))
      = c ++ (t ++ renderTail (k + 1) ps' clast) := by
  have hctxAll : ∀ p ∈ (c, t) :: ps', NoTok p.1 := by
    intro p hp
    rcases List.mem_cons.mp hp with h | h
    · rw [h]
      exact hc
    · exact hctx' p h
  have hR : ∀ q, ¬ (marker k).isPrefixOf ((renderTail (k + 1) ps' clast).drop q) := by
    intro q hpre
    have := occPos ps' (k + 1) k q clast hctx' hcl ( List.isPrefixOf_iff_prefix.mp hpre)
    omega
  have hsplit : ∀ q, q < c.length →
      ¬ (marker k).isPrefixOf ((c ++ (marker k ++ renderTail (k + 1) ps' clast)).drop q) := by
    intro q hq hpre
    have hocc := occPos ((c, t) :: ps') k k q clast hctxAll hcl
      ( List.isPrefixOf_iff_prefix.mp hpre)
    obtain ⟨c', t'', ps'', heq, hq'⟩ := hocc.2 rfl
    cases heq
    omega
  rw [replaceAll_split t c _ hsplit]
  rw [replaceAll_hit (show marker k ≠ [] by simp [marker]) t _]
  rw [replaceAll_id t _ hR]

/- Occurrence starting positions inside an already-restored chunk `b ++ ['}']`
are impossible for a pattern that contains `TOKEN_` but no closing brace. -/
theorem noStart_closed {pat : List Char} (hTw : TOKENPAT <:+: pat) (hbr : '}' ∉ pat)
    {b : List Char} (hnt : NoTok (b ++ ['}'])) (X : List Char) :
    ∀ q, q < (b ++ ['}']).length → ¬ pat.isPrefixOf (((b ++ ['}']) ++ X).drop q) := by
  intro q hq hpre
  have hp : pat <+: (b ++ ['}']).drop q ++ X := by
    rw [List.drop_append_eq_append_drop, Nat.sub_eq_zero_of_le (le_of_lt hq),
      List.drop_zero] at hpre
    exact List.isPrefixOf_iff_prefix.mp hpre
  by_cases hl : pat.length ≤ ((b ++ ['}']).drop q).length
  · exact hnt (hTw.trans (infix_of_pfx_drop (pfxShort hp hl)))
  · have hsp := pfxSplit (x := pat) (a := (b ++ ['}']).drop q) (y := X) hp (by omega)
    have hqb : q ≤ b.length := by
      have : (b ++ ['}']).length = b.length + 1 := by simp
      omega
    have hmem : '}' ∈ (b ++ ['}']).drop q := by
      rw [List.drop_append_eq_append_drop, Nat.sub_eq_zero_of_le hqb, List.drop_zero]
      simp
    exact hbr (hsp.1.subset hmem)

/- Restoring later markers never touches an already-restored prefix that ends
with a closing brace. -/
theorem restore_split :
    ∀ (ts : List (List Char)) (n : Nat) (b X : List Char), NoTok (b ++ ['}']) →
      restoreFrom n ts ((b ++ ['}']) ++ X) = (b ++ ['}']) ++ restoreFrom n ts X := by
  intro ts
  induction ts with
  | nil => intro n b X _; rfl
  | cons t ts' ih =>
    intro n b X hnt
    rw [restoreFrom, restoreFrom]
    rw [replaceAll_split t _ X (noStart_closed (tokenpat_infix_marker n)
      (closeBrace_not_mem_marker n) hnt X)]
    exact ih (n + 1) b _ hnt

/- A context chunk followed by a placeholder token contains no `TOKEN_`:
the pattern has no brace, the token starts with one. -/
theorem noTok_append_token {c t mid : List Char} (hc : NoTok c) (ht : NoTok t)
    (hmid : t = '{' :: mid ++ ['}']) : NoTok (c ++ t) := by
  intro h
  rcases infixSplit c TOKENPAT t h with h' | h' | ⟨p₁, p₂, hp, _, h2, _, h4⟩
  · exact hc h'
  · exact ht h'
  · rw [hmid] at h4
    obtain ⟨p2h, p2t, hp2⟩ := List.exists_cons_of_ne_nil h2
    rw [hp2] at h4
    have hbrace := (List.cons_prefix_cons.mp h4).1
    have hin : p2h ∈ TOKENPAT := by
      rw [hp, hp2]
      exact List.mem_append_right _ (List.mem_cons_self _ _)
    rw [hbrace] at hin
    exact absurd hin (by decide)

/- Running the full restore loop over the chunked safe text rebuilds the
original text. -/
theorem restore_renderTail :
    ∀ (ps : List (List Char × List Char)) (k : Nat) (clast : List Char),
      (∀ p ∈ ps, NoTok p.1) → NoTok clast →
      (∀ p ∈ ps, NoTok p.2 ∧ ∃ mid, p.2 = '{' :: mid ++ ['}']) →
      restoreFrom k (ps.map Prod.snd) (renderTail k ps clast) = renderOrig ps clast := by
  intro ps
  induction ps with
  | nil => intro k clast _ _ _; rfl
  | cons pr ps' ih =>
    obtain ⟨c, t⟩ := pr
    intro k clast hctx hcl htoks
    have hc : NoTok c := hctx (c, t) (by simp)
    have hctx' : ∀ p ∈ ps', NoTok p.1 := fun p hp => hctx p (by simp [hp])
    have htoks' : ∀ p ∈ ps', NoTok p.2 ∧ ∃ mid, p.2 = '{' :: mid ++ ['}'] :=
      fun p hp => htoks p (by simp [hp])
    obtain ⟨hts0, mid, hmid0⟩ := htoks (c, t) (by simp)
    have hts : NoTok t := hts0
    have hmid : t = '{' :: mid ++ ['}'] := hmid0
    rw [List.map_cons]
    rw [show renderTail k ((c, t) :: ps') clast
      = c ++ (marker k ++ renderTail (k + 1) ps' clast) from rfl]
    rw [restoreFrom]
    rw [stepEq k c t ps' clast hc hctx' hcl]
    have hct : NoTok (c ++ t) := noTok_append_token hc hts hmid
    have hgroup : c ++ (t ++ renderTail (k + 1) ps' clast)
        = ((c ++ ('{' :: mid)) ++ ['}']) ++ renderTail (k + 1) ps' clast := by
      rw [hmid]
      simp
    have hnt : NoTok ((c ++ ('{' :: mid)) ++ ['}']) := by
      rw [show (c ++ ('{' :: mid)) ++ ['}'] = c ++ t from by rw [hmid]; simp]
      exact hct
    rw [hgroup, restore_split (ps'.map Prod.snd) (k + 1) _ _ hnt,
      ih (k + 1) clast hctx' hcl htoks']
    rw [show renderOrig ((c, t) :: ps') clast = c ++ (t ++ renderOrig ps' clast) from rfl]
    rw [hmid]
    simp

/- § Characterizing the matchers and the protect scan. -/

theorem pfx_append_drop {u l : List Char} (h : u <+: l) : u ++ l.drop u.length = l := by
  obtain ⟨r, hr⟩ := h
  rw [← hr, List.drop_left]

theorem findClose_eq :
    ∀ (cs p r : List Char), findClose cs = some (p, r) → cs = p ++ '}' :: '}' :: r := by
  intro cs
  induction cs with
  | nil => intro p r h; simp [findClose] at h
  | cons c rest ih =>
    intro p r h
    rw [findClose] at h
    split at h
    · rename_i hcond
      obtain ⟨hc, hh⟩ := hcond
      simp only [Option.some.injEq, Prod.mk.injEq] at h
      obtain ⟨hp, hr⟩ := h
      subst hp
      subst hc
      cases rest with
      | nil => simp at hh
      | cons x xs =>
        simp only [List.head?_cons, Option.some.injEq] at hh
        subst hh
        simp only [List.tail_cons] at hr
        subst hr
        rfl
    · split at h
      · simp at h
      · split at h
        · rename_i p' r' heq
          simp only [Option.some.injEq, Prod.mk.injEq] at h
          obtain ⟨hp, hr⟩ := h
          rw [← hp, ← hr, ih _ _ heq]
          rfl
        · simp at h

theorem matchDoubleAt_eq :
    ∀ (s m r : List Char), matchDoubleAt s = some (m, r) →
      s = m ++ r ∧ ∃ mid, m = '{' :: mid ++ ['}'] := by
  intro s m r h
  match s with
  | [] => simp [matchDoubleAt] at h
  | [_] => simp [matchDoubleAt] at h
  | c1 :: c2 :: cs =>
    rw [matchDoubleAt] at h
    split at h
    · rename_i hcond
      obtain ⟨h1, h2⟩ := hcond
      subst h1
      subst h2
      split at h
      · rename_i p r' heq
        simp only [Option.some.injEq, Prod.mk.injEq] at h
        obtain ⟨hm, hr⟩ := h
        rw [← hm, ← hr]
        constructor
        · rw [findClose_eq cs p r' heq]
          simp
        · exact ⟨'{' :: (p ++ ['}']), by simp⟩
      · simp at h
    · simp at h

theorem matchSingleAt_eq :
    ∀ (s m r : List Char), matchSingleAt s = some (m, r) →
      s = m ++ r ∧ ∃ mid, m = '{' :: mid ++ ['}'] := by
  intro s m r h
  match s with
  | [] => simp [matchSingleAt] at h
  | c :: cs =>
    simp only [matchSingleAt] at h
    split at h
    · rename_i hc
      subst hc
      split at h
      · simp at h
      · rename_i hrun
        split at h
        · rename_i r' heq
          simp only [Option.some.injEq, Prod.mk.injEq] at h
          obtain ⟨hm, hr⟩ := h
          rw [← hm, ← hr]
          constructor
          · have hsplit := pfx_append_drop ( List.takeWhile_prefix
              (l := cs) (fun ch => ¬ (ch = '{' ∨ ch = '}')))
            conv_lhs => rw [← hsplit]
            rw [heq]
            simp
          · exact ⟨cs.takeWhile (fun ch => ¬ (ch = '{' ∨ ch = '}')), by simp⟩
        · simp at h
    · simp at h

theorem infix_cons_lift {p l : List Char} (a : Char) (h : p <:+: l) : p <:+: a :: l :=
  h.trans (List.suffix_cons a l).isInfix

/- The protect scan decomposes its input into alternating contexts and
placeholder matches; its first output is the chunked safe text and its second
the list of matches. -/
theorem protectF_decomp :
    ∀ (fuel : Nat) (s : List Char) (n : Nat), s.length ≤ fuel →
      ∃ ps clast,
        protectF fuel s n = (renderTail n ps clast, ps.map Prod.snd) ∧
        renderOrig ps clast = s ∧
        (∀ p ∈ ps, p.1 <:+: s ∧ p.2 <:+: s ∧ ∃ mid, p.2 = '{' :: mid ++ ['}']) ∧
        clast <:+: s := by
  intro fuel
  induction fuel with
  | zero =>
    intro s n hf
    have hs : s = [] := List.length_eq_zero.mp (by omega)
    subst hs
    exact ⟨[], [], rfl, rfl, by simp, by simp⟩
  | succ f ih =>
    intro s n hf
    cases s with
    | nil => exact ⟨[], [], rfl, rfl, by simp, by simp⟩
    | cons c cs =>
      cases hmd : matchDoubleAt (c :: cs) with
      | some mr =>
        obtain ⟨m, rest⟩ := mr
        obtain ⟨hsm, mid, hmid⟩ := matchDoubleAt_eq _ _ _ hmd
        have hrest : rest <:+ c :: cs := ⟨m, hsm.symm⟩
        have hrl : rest.length ≤ f := by
          have hL := congrArg List.length hsm
          rw [hmid] at hL
          simp at hL hf
          omega
        obtain ⟨ps', clast', he, ho, hprops, hcl⟩ := ih rest (n + 1) hrl
        refine ⟨([], m) :: ps', clast', ?_, ?_, ?_, ?_⟩
        · simp only [protectF, hmd]
          rw [he]
          simp [renderTail]
        · rw [show renderOrig (([], m) :: ps') clast' = m ++ renderOrig ps' clast' from rfl]
          rw [ho, ← hsm]
        · intro p hp
          rcases List.mem_cons.mp hp with h | h
          · rw [h]
            refine ⟨by simp, ?_, ⟨mid, hmid⟩⟩
            rw [hsm]
            exact (List.prefix_append m rest).isInfix
          · obtain ⟨h1, h2, h3⟩ := hprops p h
            exact ⟨h1.trans hrest.isInfix, h2.trans hrest.isInfix, h3⟩
        · exact hcl.trans hrest.isInfix
      | none =>
        cases hms : matchSingleAt (c :: cs) with
        | some mr =>
          obtain ⟨m, rest⟩ := mr
          obtain ⟨hsm, mid, hmid⟩ := matchSingleAt_eq _ _ _ hms
          have hrest : rest <:+ c :: cs := ⟨m, hsm.symm⟩
          have hrl : rest.length ≤ f := by
            have hL := congrArg List.length hsm
            rw [hmid] at hL
            simp at hL hf
            omega
          obtain ⟨ps', clast', he, ho, hprops, hcl⟩ := ih rest (n + 1) hrl
          refine ⟨([], m) :: ps', clast', ?_, ?_, ?_, ?_⟩
          · simp only [protectF, hmd, hms]
            rw [he]
            simp [renderTail]
          · rw [show renderOrig (([], m) :: ps') clast' = m ++ renderOrig ps' clast' from rfl]
            rw [ho, ← hsm]
          · intro p hp
            rcases List.mem_cons.mp hp with h | h
            · rw [h]
              refine ⟨by simp, ?_, ⟨mid, hmid⟩⟩
              rw [hsm]
              exact (List.prefix_append m rest).isInfix
            · obtain ⟨h1, h2, h3⟩ := hprops p h
              exact ⟨h1.trans hrest.isInfix, h2.trans hrest.isInfix, h3⟩
          · exact hcl.trans hrest.isInfix
        | none =>
          obtain ⟨ps', clast', he, ho, hprops, hcl⟩ := ih cs n (by simp at hf; omega)
          cases ps' with
          | nil =>
            refine ⟨[], c :: clast', ?_, ?_, by simp, by simp [← ho, renderOrig]⟩
            · simp only [protectF, hmd, hms]
              rw [he]
              simp [renderTail]
            · rw [show renderOrig [] (c :: clast') = c :: clast' from rfl]
              rw [show renderOrig ([] : List (List Char × List Char)) clast' = clast'
                from rfl] at ho
              rw [ho]
          | cons pr ps'' =>
            obtain ⟨c0, t0⟩ := pr
            have ho' : c0 ++ (t0 ++ renderOrig ps'' clast') = cs := ho
            refine ⟨(c :: c0, t0) :: ps'', clast', ?_, ?_, ?_, ?_⟩
            · simp only [protectF, hmd, hms]
              rw [he]
              rw [show renderTail n ((c :: c0, t0) :: ps'') clast'
                = (c :: c0) ++ (marker n ++ renderTail (n + 1) ps'' clast') from rfl]
              rw [show renderTail n ((c0, t0) :: ps'') clast'
                = c0 ++ (marker n ++ renderTail (n + 1) ps'' clast') from rfl]
              simp
            · rw [show renderOrig ((c :: c0, t0) :: ps'') clast'
                = (c :: c0) ++ (t0 ++ renderOrig ps'' clast') from rfl]
              rw [List.cons_append, ho']
            · intro p hp
              rcases List.mem_cons.mp hp with h | h
              · rw [h]
                obtain ⟨h1, h2, h3⟩ := hprops (c0, t0) (by simp)
                refine ⟨?_, infix_cons_lift c h2, h3⟩
                have hpre : c :: c0 <+: c :: cs := by
                  rw [← ho']
                  rw [List.cons_prefix_cons]
                  exact ⟨rfl, ⟨t0 ++ renderOrig ps'' clast', rfl⟩⟩
                exact hpre.isInfix
              · obtain ⟨h1, h2, h3⟩ := hprops p (by simp [h])
                exact ⟨infix_cons_lift c h1, infix_cons_lift c h2, h3⟩
            · exact infix_cons_lift c hcl

/- Round trip: protecting and immediately restoring reproduces the input,
provided the input does not contain the marker core `TOKEN_`. -/
theorem protect_restore_id (S : List Char) (h : ¬ (TOKENPAT <:+: S)) :
    restore_placeholders (protect_placeholders S).1 (protect_placeholders S).2 = S := by
  obtain ⟨ps, clast, he, ho, hprops, hcl⟩ := protectF_decomp S.length S 0 (le_refl _)
  rw [show protect_placeholders S = protectF S.length S 0 from rfl, he]
  rw [show restore_placeholders (renderTail 0 ps clast, List.map Prod.snd ps).1
      (renderTail 0 ps clast, List.map Prod.snd ps).2
    = restoreFrom 0 (ps.map Prod.snd) (renderTail 0 ps clast) from rfl]
  rw [restore_renderTail ps 0 clast
    (fun p hp => NoTok.mono (hprops p hp).1 h)
    (NoTok.mono hcl h)
    (fun p hp => ⟨NoTok.mono (hprops p hp).2.1 h, (hprops p hp).2.2⟩)]
  exact ho

theorem Extends.rfl (c : Cache) : Extends c c := fun _ _ h => h

theorem Extends.trans {a b c : Cache} (h1 : Extends a b) (h2 : Extends b c) :
    Extends a c :=
  fun k v h => h2 k v (h1 k v h)

theorem lookupC_cons_self (key : List Char × List Char) (v : List Char) (c : Cache) :
    lookupC ((key, v) :: c) key = some v := by
  simp [lookupC]

theorem Extends.consFresh {c : Cache} {key : List Char × List Char} (v : List Char)
    (h : lookupC c key = none) : Extends c ((key, v) :: c) := by
  intro k w hk
  by_cases hkk : key = k
  · subst hkk
    rw [h] at hk
    cases hk
  · simp [lookupC, hkk]
    exact hk

theorem Extends.isSomeTrans {c c' : Cache} (h : Extends c c') {k : List Char × List Char}
    (hs : (lookupC c k).isSome = true) : (lookupC c' k).isSome = true := by
  obtain ⟨v, hv⟩ := Option.isSome_iff_exists.mp hs
  rw [h k v hv]
  rfl

theorem Extends.getDTrans {c c' : Cache} (h : Extends c c') {k : List Char × List Char}
    (hs : (lookupC c k).isSome = true) (d d' : List Char) :
    (lookupC c k).getD d = (lookupC c' k).getD d' := by
  obtain ⟨v, hv⟩ := Option.isSome_iff_exists.mp hs
  rw [hv, h k v hv]
  rfl

mutual
theorem mapStr_congr : ∀ (v : JsonVal) (f g : List Char → List Char),
    (∀ s ∈ leaves v, f s = g s) → mapStr f v = mapStr g v
  | .str s, f, g, h => by
    have := h s (by simp [leaves])
    simp [mapStr, this]
  | .num _, _, _, _ => rfl
  | .bool _, _, _, _ => rfl
  | .null, _, _, _ => rfl
  | .arr vs, f, g, h => by
    have := mapStrArr_congr vs f g (fun s hs => h s (by simpa [leaves] using hs))
    simp [mapStr, this]
  | .obj kvs, f, g, h => by
    have := mapStrObj_congr kvs f g (fun s hs => h s (by simpa [leaves] using hs))
    simp [mapStr, this]

theorem mapStrArr_congr : ∀ (vs : List JsonVal) (f g : List Char → List Char),
    (∀ s ∈ leavesArr vs, f s = g s) → mapStrArr f vs = mapStrArr g vs
  | [], _, _, _ => rfl
  | v :: vs, f, g, h => by
    have h1 := mapStr_congr v f g (fun s hs => h s (by simp [leavesArr, hs]))
    have h2 := mapStrArr_congr vs f g (fun s hs => h s (by simp [leavesArr, hs]))
    simp [mapStrArr, h1, h2]

theorem mapStrObj_congr : ∀ (kvs : List (List Char × JsonVal)) (f g : List Char → List Char),
    (∀ s ∈ leavesObj kvs, f s = g s) → mapStrObj f kvs = mapStrObj g kvs
  | [], _, _, _ => rfl
  | (k, v) :: kvs, f, g, h => by
    have h1 := mapStr_congr v f g (fun s hs => h s (by simp [leavesObj, hs]))
    have h2 := mapStrObj_congr kvs f g (fun s hs => h s (by simp [leavesObj, hs]))
    simp [mapStrObj, h1, h2]
end

mutual
theorem sameShape_mapStr : ∀ (v : JsonVal) (g : List Char → List Char),
    sameShape v (mapStr g v) = true
  | .str s, g => rfl
  | .num n, _ => by simp [mapStr, sameShape]
  | .bool b, _ => by simp [mapStr, sameShape]
  | .null, _ => rfl
  | .arr vs, g => by
    have := sameShapeArr_mapStr vs g
    simp [mapStr, sameShape, this]
  | .obj kvs, g => by
    have := sameShapeObj_mapStr kvs g
    simp [mapStr, sameShape, this]

theorem sameShapeArr_mapStr : ∀ (vs : List JsonVal) (g : List Char → List Char),
    sameShapeArr vs (mapStrArr g vs) = true
  | [], _ => rfl
  | v :: vs, g => by
    have h1 := sameShape_mapStr v g
    have h2 := sameShapeArr_mapStr vs g
    simp [mapStrArr, sameShapeArr, h1, h2]

theorem sameShapeObj_mapStr : ∀ (kvs : List (List Char × JsonVal)) (g : List Char → List Char),
    sameShapeObj kvs (mapStrObj g kvs) = true
  | [], _ => rfl
  | (k, v) :: kvs, g => by
    have h1 := sameShape_mapStr v g
    have h2 := sameShapeObj_mapStr kvs g
    simp [mapStrObj, sameShapeObj, h1, h2]
end

mutual
/- Main invariant of the traversal, by mutual structural induction:
(1) the cache only grows, entries are never overwritten;
(2) every call to the translation function was for a string that was not in
    the incoming cache, and afterwards the string is cached;
(3) no string is sent to the translation function twice;
(4) on return, every string leaf of the input is cached;
(5) the produced value replaces each string leaf `s` by the entry the final
    cache holds for `(s, target)` — every occurrence of the same string
    yields the same result. -/
theorem transInv : ∀ (v : JsonVal) (tr : Translator) (c : Cache),
    Extends c (translate_value v tr c).cache ∧
    (∀ s ∈ (translate_value v tr c).calls,
      lookupC c (s, tr.target) = none ∧
      (lookupC (translate_value v tr c).cache (s, tr.target)).isSome = true) ∧
    (translate_value v tr c).calls.Nodup ∧
    (∀ s ∈ leaves v,
      (lookupC (translate_value v tr c).cache (s, tr.target)).isSome = true) ∧
    (translate_value v tr c).val
      = mapStr (fun s => (lookupC (translate_value v tr c).cache (s, tr.target)).getD s) v
  | .str s, tr, c => by
    cases hh : lookupC c (s, tr.target) with
    | some t =>
      simp only [translate_value, hh]
      refine ⟨Extends.rfl c, by simp, by simp, ?_, ?_⟩
      · intro s' hs'
        simp only [leaves, List.mem_singleton] at hs'
        subst hs'
        rw [hh]
        rfl
      · simp [mapStr, hh]
    | none =>
      cases ht : tr.translate (protect_placeholders s).1 with
      | ok tt =>
        simp only [translate_value, hh, ht]
        refine ⟨Extends.consFresh _ hh, ?_, by simp, ?_, ?_⟩
        · intro s' hs'
          simp only [List.mem_singleton] at hs'
          subst hs'
          exact ⟨hh, by rw [lookupC_cons_self]; rfl⟩
        · intro s' hs'
          simp only [leaves, List.mem_singleton] at hs'
          subst hs'
          rw [lookupC_cons_self]
          rfl
        · simp [mapStr, lookupC_cons_self]
      | error e =>
        simp only [translate_value, hh, ht]
        refine ⟨Extends.consFresh _ hh, ?_, by simp, ?_, ?_⟩
        · intro s' hs'
          simp only [List.mem_singleton] at hs'
          subst hs'
          exact ⟨hh, by rw [lookupC_cons_self]; rfl⟩
        · intro s' hs'
          simp only [leaves, List.mem_singleton] at hs'
          subst hs'
          rw [lookupC_cons_self]
          rfl
        · simp [mapStr, lookupC_cons_self]
  | .num n, tr, c => by
    simp only [translate_value]
    exact ⟨Extends.rfl c, by simp, by simp, by simp [leaves], by simp [mapStr]⟩
  | .bool b, tr, c => by
    simp only [translate_value]
    exact ⟨Extends.rfl c, by simp, by simp, by simp [leaves], by simp [mapStr]⟩
  | .null, tr, c => by
    simp only [translate_value]
    exact ⟨Extends.rfl c, by simp, by simp, by simp [leaves], by simp [mapStr]⟩
  | .arr vs, tr, c => by
    obtain ⟨e, m2, m3, m5, m4⟩ := transInvArr vs tr c
    simp only [translate_value]
    refine ⟨e, m2, m3, ?_, ?_⟩
    · intro s hs
      exact m5 s (by simpa [leaves] using hs)
    · simp only [mapStr]
      rw [m4]
  | .obj kvs, tr, c => by
    obtain ⟨e, m2, m3, m5, m4⟩ := transInvObj kvs tr c
    simp only [translate_value]
    refine ⟨e, m2, m3, ?_, ?_⟩
    · intro s hs
      exact m5 s (by simpa [leaves] using hs)
    · simp only [mapStr]
      rw [m4]

theorem transInvArr : ∀ (vs : List JsonVal) (tr : Translator) (c : Cache),
    Extends c (translateArr vs tr c).cache ∧
    (∀ s ∈ (translateArr vs tr c).calls,
      lookupC c (s, tr.target) = none ∧
      (lookupC (translateArr vs tr c).cache (s, tr.target)).isSome = true) ∧
    (translateArr vs tr c).calls.Nodup ∧
    (∀ s ∈ leavesArr vs,
      (lookupC (translateArr vs tr c).cache (s, tr.target)).isSome = true) ∧
    (translateArr vs tr c).vals
      = mapStrArr (fun s => (lookupC (translateArr vs tr c).cache (s, tr.target)).getD s) vs
  | [], tr, c => by
    simp only [translateArr]
    exact ⟨Extends.rfl c, by simp, by simp, by simp [leavesArr], by simp [mapStrArr]⟩
  | v :: vs, tr, c => by
    obtain ⟨e1, m2a, m3a, m5a, m4a⟩ := transInv v tr c
    obtain ⟨e2, m2b, m3b, m5b, m4b⟩ := transInvArr vs tr (translate_value v tr c).cache
    simp only [translateArr]
    refine ⟨e1.trans e2, ?_, ?_, ?_, ?_⟩
    · intro s hs
      rcases List.mem_append.mp hs with h | h
      · exact ⟨(m2a s h).1, e2.isSomeTrans (m2a s h).2⟩
      · refine ⟨?_, (m2b s h).2⟩
        cases hq : lookupC c (s, tr.target) with
        | none => rfl
        | some w =>
          have hw := e1 _ _ hq
          rw [(m2b s h).1] at hw
          cases hw
    · refine List.Nodup.append m3a m3b ?_
      intro s hsa hsb
      have h1 := (m2a s hsa).2
      have h2 := (m2b s hsb).1
      rw [h2] at h1
      simp at h1
    · intro s hs
      rcases List.mem_append.mp (by simpa [leavesArr] using hs) with h | h
      · exact e2.isSomeTrans (m5a s h)
      · exact m5b s h
    · simp only [mapStrArr]
      have hv : (translate_value v tr c).val
          = mapStr (fun s =>
              (lookupC (translateArr vs tr (translate_value v tr c).cache).cache
                (s, tr.target)).getD s) v := by
        rw [m4a]
        apply mapStr_congr
        intro s hs
        exact e2.getDTrans (m5a s hs) s s
      rw [hv, m4b]

theorem transInvObj : ∀ (kvs : List (List Char × JsonVal)) (tr : Translator) (c : Cache),
    Extends c (translateObj kvs tr c).cache ∧
    (∀ s ∈ (translateObj kvs tr c).calls,
      lookupC c (s, tr.target) = none ∧
      (lookupC (translateObj kvs tr c).cache (s, tr.target)).isSome = true) ∧
    (translateObj kvs tr c).calls.Nodup ∧
    (∀ s ∈ leavesObj kvs,
      (lookupC (translateObj kvs tr c).cache (s, tr.target)).isSome = true) ∧
    (translateObj kvs tr c).entries
      = mapStrObj (fun s => (lookupC (translateObj kvs tr c).cache (s, tr.target)).getD s) kvs
  | [], tr, c => by
    simp only [translateObj]
    exact ⟨Extends.rfl c, by simp, by simp, by simp [leavesObj], by simp [mapStrObj]⟩
  | (k, v) :: kvs, tr, c => by
    obtain ⟨e1, m2a, m3a, m5a, m4a⟩ := transInv v tr c
    obtain ⟨e2, m2b, m3b, m5b, m4b⟩ := transInvObj kvs tr (translate_value v tr c).cache
    simp only [translateObj]
    refine ⟨e1.trans e2, ?_, ?_, ?_, ?_⟩
    · intro s hs
      rcases List.mem_append.mp hs with h | h
      · exact ⟨(m2a s h).1, e2.isSomeTrans (m2a s h).2⟩
      · refine ⟨?_, (m2b s h).2⟩
        cases hq : lookupC c (s, tr.target) with
        | none => rfl
        | some w =>
          have hw := e1 _ _ hq
          rw [(m2b s h).1] at hw
          cases hw
    · refine List.Nodup.append m3a m3b ?_
      intro s hsa hsb
      have h1 := (m2a s hsa).2
      have h2 := (m2b s hsb).1
      rw [h2] at h1
      simp at h1
    · intro s hs
      rcases List.mem_append.mp (by simpa [leavesObj] using hs) with h | h
      · exact e2.isSomeTrans (m5a s h)
      · exact m5b s h
    · simp only [mapStrObj]
      have hv : (translate_value v tr c).val
          = mapStr (fun s =>
              (lookupC (translateObj kvs tr (translate_value v tr c).cache).cache
                (s, tr.target)).getD s) v := by
        rw [m4a]
        apply mapStr_congr
        intro s hs
        exact e2.getDTrans (m5a s hs) s s
      rw [hv, m4b]
end

/- § Termination of the tree walk. -/

theorem jsize_pos (v : JsonVal) : 1 ≤ jsize v := by
  cases v <;> simp [jsize]

theorem jsizeArr_mem : ∀ {vs : List JsonVal} {v : JsonVal}, v ∈ vs → jsize v ≤ jsizeArr vs := by
  intro vs
  induction vs with
  | nil => intro v h; cases h
  | cons v0 vs' ih =>
    intro v h
    rcases List.mem_cons.mp h with h | h
    · rw [h, jsizeArr]
      omega
    · have := ih h
      rw [jsizeArr]
      omega

theorem jsizeObj_mem : ∀ {kvs : List (List Char × JsonVal)} {k : List Char} {v : JsonVal},
    (k, v) ∈ kvs → jsize v ≤ jsizeObj kvs := by
  intro kvs
  induction kvs with
  | nil => intro k v h; cases h
  | cons kv0 kvs' ih =>
    obtain ⟨k0, v0⟩ := kv0
    intro k v h
    rcases List.mem_cons.mp h with h | h
    · have hv : v = v0 := congrArg Prod.snd h
      rw [hv, jsizeObj]
      omega
    · have := ih h
      rw [jsizeObj]
      omega

theorem goArrFuel_eq (tr : Translator) :
    ∀ (vs : List JsonVal) (g : JsonVal → Cache → Option TRes),
      (∀ v ∈ vs, ∀ c, g v c = some (translate_value v tr c)) →
      ∀ c, goArrFuel g vs c = some (translateArr vs tr c) := by
  intro vs
  induction vs with
  | nil => intro g _ c; rfl
  | cons v vs' ih =>
    intro g hall c
    rw [goArrFuel, hall v (by simp) c, Option.some_bind,
      ih g (fun v' hv' c' => hall v' (by simp [hv']) c'), Option.some_bind]
    rfl

theorem goObjFuel_eq (tr : Translator) :
    ∀ (kvs : List (List Char × JsonVal)) (g : JsonVal → Cache → Option TRes),
      (∀ kv ∈ kvs, ∀ c, g kv.2 c = some (translate_value kv.2 tr c)) →
      ∀ c, goObjFuel g kvs c = some (translateObj kvs tr c) := by
  intro kvs
  induction kvs with
  | nil => intro g _ c; rfl
  | cons kv kvs' ih =>
    obtain ⟨k, v⟩ := kv
    intro g hall c
    rw [goObjFuel, hall (k, v) (by simp) c, Option.some_bind,
      ih g (fun kv' hkv' c' => hall kv' (by simp [hkv']) c'), Option.some_bind]
    rfl

/- The fuel-bounded walk agrees with `translate_value` whenever the fuel
covers the size of the input: the recursion of `translate_value` descends
strictly into sub-values and terminates on every finite value. -/
theorem translateFuel_eq :
    ∀ (fuel : Nat) (v : JsonVal) (tr : Translator) (c : Cache), jsize v ≤ fuel →
      translateFuel fuel v tr c = some (translate_value v tr c) := by
  intro fuel
  induction fuel with
  | zero =>
    intro v tr c h
    have := jsize_pos v
    omega
  | succ f ih =>
    intro v tr c h
    match v with
    | .str s => rfl
    | .num n => rfl
    | .bool b => rfl
    | .null => rfl
    | .arr vs =>
      have hall : ∀ v' ∈ vs, ∀ c', translateFuel f v' tr c' = some (translate_value v' tr c') := by
        intro v' hv' c'
        apply ih
        have h1 := jsizeArr_mem hv'
        rw [jsize] at h
        omega
      rw [translateFuel, goArrFuel_eq tr vs _ hall c]
      rfl
    | .obj kvs =>
      have hall : ∀ kv ∈ kvs, ∀ c',
          translateFuel f kv.2 tr c' = some (translate_value kv.2 tr c') := by
        intro kv hkv c'
        apply ih
        obtain ⟨k, v'⟩ := kv
        have h1 := jsizeObj_mem hkv
        rw [jsize] at h
        show jsize v' ≤ f
        omega
      rw [translateFuel, goObjFuel_eq tr kvs _ hall c]
      rfl

theorem dedupFirst_sub : ∀ (xs : List (List Char)) (seen : List (List Char)) (x : List Char),
    x ∈ dedupFirst seen xs → x ∈ xs := by
  intro xs
  induction xs with
  | nil => intro seen x h; simp [dedupFirst] at h
  | cons y xs' ih =>
    intro seen x h
    rw [dedupFirst] at h
    split at h
    · exact List.mem_cons_of_mem y (ih _ x h)
    · rcases List.mem_cons.mp h with h | h
      · simp [h]
      · exact List.mem_cons_of_mem y (ih _ x h)

theorem dedupFirst_mem : ∀ (xs : List (List Char)) (seen : List (List Char)) (x : List Char),
    x ∈ xs → x ∉ seen → x ∈ dedupFirst seen xs := by
  intro xs
  induction xs with
  | nil => intro seen x h _; cases h
  | cons y xs' ih =>
    intro seen x hx hseen
    rw [dedupFirst]
    rcases List.mem_cons.mp hx with h | h
    · subst h
      rw [if_neg hseen]
      exact List.mem_cons_self _ _
    · split
      · exact ih _ x h hseen
      · by_cases hxy : x = y
        · subst hxy
          exact List.mem_cons_self _ _
        · exact List.mem_cons_of_mem y (ih _ x h (by simp [hseen, hxy]))

theorem dedupFirst_good : ∀ (xs : List (List Char)) (seen : List (List Char)),
    (dedupFirst seen xs).Nodup ∧ ∀ x ∈ dedupFirst seen xs, x ∉ seen := by
  intro xs
  induction xs with
  | nil => intro seen; simp [dedupFirst]
  | cons y xs' ih =>
    intro seen
    rw [dedupFirst]
    split
    · exact ih seen
    · rename_i hy
      obtain ⟨h1, h2⟩ := ih (y :: seen)
      constructor
      · rw [List.nodup_cons]
        exact ⟨fun hmem => (h2 y hmem) (List.mem_cons_self _ _), h1⟩
      · intro x hx
        rcases List.mem_cons.mp hx with h | h
        · subst h
          exact hy
        · intro hxs
          exact (h2 x h) (List.mem_cons_of_mem _ hxs)

theorem mem_infix_joinComma : ∀ (xs : List (List Char)) (x : List Char),
    x ∈ xs → x <:+: joinComma xs := by
  intro xs
  induction xs with
  | nil => intro x h; cases h
  | cons y xs' ih =>
    intro x hx
    cases xs' with
    | nil =>
      have hxy : x = y := by simpa using hx
      subst hxy
      exact List.infix_refl x
    | cons z zs =>
      rcases List.mem_cons.mp hx with h | h
      · subst h
        exact infix_append_left (List.infix_refl x)
      · exact infix_append_right (infix_append_right (ih x h))

theorem protectF_noMatch : ∀ (fuel : Nat) (s : List Char) (n : Nat),
    hasMatch s = false → protectF fuel s n = (s, []) := by
  intro fuel
  induction fuel with
  | zero => intro s n _; rfl
  | succ f ih =>
    intro s n h
    cases s with
    | nil => rfl
    | cons c cs =>
      rw [hasMatch] at h
      simp only [Bool.or_eq_false_iff] at h
      obtain ⟨⟨h1, h2⟩, h3⟩ := h
      have hd : matchDoubleAt (c :: cs) = none := by
        cases hx : matchDoubleAt (c :: cs)
        · rfl
        · rw [hx] at h1
          simp at h1
      have hsg : matchSingleAt (c :: cs) = none := by
        cases hx : matchSingleAt (c :: cs)
        · rfl
        · rw [hx] at h2
          simp at h2
      simp only [protectF, hd, hsg]
      rw [ih cs n h3]

/- § Remaining small helpers for the claims. -/

theorem marker_ne_nil (n : Nat) : marker n ≠ [] := by
  simp [marker]

theorem noStart_of_bounded {pat s : List Char} (hne : pat ≠ [])
    (h : ∀ q, q < s.length → ¬ pat.isPrefixOf (s.drop q)) :
    ∀ q, ¬ pat.isPrefixOf (s.drop q) := by
  intro q hp
  by_cases hq : q < s.length
  · exact h q hq hp
  · rw [List.drop_eq_nil_of_le (by omega)] at hp
    cases pat with
    | nil => exact hne rfl
    | cons p ps => simp [List.isPrefixOf] at hp

/- Leftmost non-overlapping replacement rewrites every separator at once:
under the separation condition, replacing `m` by `t` in
`a0 ++ m ++ a1 ++ ... ++ m ++ an` yields `a0 ++ t ++ a1 ++ ... ++ t ++ an`,
however many separators there are. -/
theorem replaceAll_joinWith (m t : List Char) (hm : m ≠ []) :
    ∀ segs : List (List Char), sepOK m segs = true →
      replaceAll m t (joinWith m segs) = joinWith t segs
  | [], _ => rfl
  | [a], h => by
    have hb : ∀ q, q < a.length → ¬ m.isPrefixOf (a.drop q) :=
      of_decide_eq_true h
    show replaceAll m t a = a
    exact replaceAll_id t a (noStart_of_bounded hm hb)
  | a :: b :: rest, h => by
    have hsplit : sepOK m (a :: b :: rest)
        = (decide (∀ q, q < a.length →
            ¬ m.isPrefixOf ((a ++ (m ++ joinWith m (b :: rest))).drop q))
          && sepOK m (b :: rest)) := rfl
    rw [hsplit, Bool.and_eq_true] at h
    have hb := of_decide_eq_true h.1
    show replaceAll m t (a ++ (m ++ joinWith m (b :: rest)))
        = a ++ (t ++ joinWith t (b :: rest))
    rw [replaceAll_split t a _ hb]
    rw [replaceAll_hit hm t _]
    rw [replaceAll_joinWith m t hm (b :: rest) h.2]

/- § The claims. -/

/-- C1 (counterexample to the claim as stated): for `S = "__TOKEN_0__{x}"` —
a well-formed placeholder preceded by text that happens to spell the first
marker — protecting and restoring yields `"{x}{x}"`, not `S`: the literal
`__TOKEN_0__` text is replaced by the placeholder as well. -/
theorem C1_cex :
    restore_placeholders (protect_placeholders collideS).1 (protect_placeholders collideS).2
      = ['{', 'x', '}', '{', 'x', '}'] ∧
    (['{', 'x', '}', '{', 'x', '}'] : List Char) ≠ collideS := by
  constructor
  · decide
  · decide

/-- C1 (amended): for every string S that does not contain the marker core
`TOKEN_` (so that no marker `__TOKEN_i__` can collide with text of S or
arise from fragments of S), restoring the placeholders of the guarded string
with no translation applied reconstructs S exactly. -/
theorem C1_roundtrip (S : List Char) (h : ¬ (TOKENPAT <:+: S)) :
    restore_placeholders (protect_placeholders S).1 (protect_placeholders S).2 = S :=
  protect_restore_id S h

theorem C1_roundtrip_witness :
    ¬ (TOKENPAT <:+: (cl "Hello " ++ ['{', '{'] ++ cl "name" ++ ['}', '}'] ++ cl ", "
        ++ ['{'] ++ cl "n" ++ ['}'])) ∧
    restore_placeholders
        (protect_placeholders (cl "Hello " ++ ['{', '{'] ++ cl "name" ++ ['}', '}'] ++ cl ", "
          ++ ['{'] ++ cl "n" ++ ['}'])).1
        (protect_placeholders (cl "Hello " ++ ['{', '{'] ++ cl "name" ++ ['}', '}'] ++ cl ", "
          ++ ['{'] ++ cl "n" ++ ['}'])).2
      = cl "Hello " ++ ['{', '{'] ++ cl "name" ++ ['}', '}'] ++ cl ", "
          ++ ['{'] ++ cl "n" ++ ['}'] :=
  ⟨by decide, C1_roundtrip _ (by decide)⟩

/-- C2 (counterexample to the claim as stated): for `S = "__TOKEN_0__{x}"`
and a translation function that raises, the produced value is `"{x}{x}"`,
which is not S — the literal marker text in S is lost. -/
theorem C2_cex :
    (translate_value (.str collideS) failTr []).val = .str ['{', 'x', '}', '{', 'x', '}'] ∧
    (['{', 'x', '}', '{', 'x', '}'] : List Char) ≠ collideS := by
  constructor
  · rfl
  · decide

/-- C2 (amended): if the translation function raises while `translate_value`
processes a string S that does not contain the marker core `TOKEN_` and that
is not already cached, then no exception propagates (the function returns
normally), exactly one warning identifying S and the target language is
emitted, and the value produced for S is S itself — placeholders intact. -/
theorem C2_fallback (S : List Char) (tr : Translator) (c : Cache) (e : List Char)
    (hmiss : lookupC c (S, tr.target) = none)
    (herr : tr.translate (protect_placeholders S).1 = .error e)
    (hnt : ¬ (TOKENPAT <:+: S)) :
    translate_value (.str S) tr c
      = ⟨.str S, ((S, tr.target), S) :: c, [⟨S, tr.target, e⟩], [S]⟩ := by
  simp only [translate_value, hmiss, herr]
  rw [protect_restore_id S hnt]

theorem C2_fallback_witness :
    translate_value (.str (cl "Hi " ++ ['{', 'x', '}'])) failTr []
      = ⟨.str (cl "Hi " ++ ['{', 'x', '}']),
         (((cl "Hi " ++ ['{', 'x', '}']), cl "de"), cl "Hi " ++ ['{', 'x', '}']) :: [],
         [⟨cl "Hi " ++ ['{', 'x', '}'], cl "de", cl "boom"⟩],
         [cl "Hi " ++ ['{', 'x', '}']]⟩ :=
  C2_fallback _ failTr [] (cl "boom") rfl rfl (by decide)

/-- C3: for every JSON-like value, every translator and every starting cache,
the output of `translate_value` has the same shape as the input: mappings
keep the same keys in the same order (keys are never translated), sequences
keep their length and order, and every non-string scalar leaf is returned
unchanged (`sameShape` checks exactly these conditions, ignoring only the
contents of string leaves). -/
theorem C3_structure (v : JsonVal) (tr : Translator) (c : Cache) :
    sameShape v (translate_value v tr c).val = true := by
  obtain ⟨_, _, _, _, m4⟩ := transInv v tr c
  rw [m4]
  exact sameShape_mapStr v _

/-- C4: within one run over one document for one target language starting
from the empty cache, (1) the injected translation function is invoked at
most once per distinct string leaf (the call log has no duplicates), (2) the
produced value replaces every occurrence of a string leaf `s` by the single
entry the final cache holds for `(s, target)` — so equal leaves yield equal
results — and (3) a cache hit returns the cached translation with no
invocation of the translation function at all. -/
theorem C4_cache (v : JsonVal) (tr : Translator) :
    (translate_value v tr []).calls.Nodup ∧
    (translate_value v tr []).val
      = mapStr (fun s => (lookupC (translate_value v tr []).cache (s, tr.target)).getD s) v ∧
    ∀ (S t : List Char) (c : Cache), lookupC c (S, tr.target) = some t →
      translate_value (.str S) tr c = ⟨.str t, c, [], []⟩ := by
  obtain ⟨_, _, m3, _, m4⟩ := transInv v tr []
  refine ⟨m3, m4, ?_⟩
  intro S t c h
  simp only [translate_value, h]

theorem C4_cache_witness :
    (translate_value exampleDoc upperTr []).calls.Nodup ∧
    translate_value (.str (cl "hi")) upperTr [((cl "hi", cl "de"), cl "HI")]
      = ⟨.str (cl "HI"), [((cl "hi", cl "de"), cl "HI")], [], []⟩ :=
  ⟨(C4_cache exampleDoc upperTr).1,
    (C4_cache JsonVal.null upperTr).2.2 (cl "hi") (cl "HI") [((cl "hi", cl "de"), cl "HI")] rfl⟩

/-- C5: invoking with `--langs` listing only codes from the configured set
produces exactly one output file `<code>.json` per requested code and no
others (duplicate requests collapse to the single dict entry); when some
requested code is not configured, the selection fails with an error naming
every unsupported code and no output file is produced (the `ValueError` is
raised before the source file, the translator or any output path is
touched). -/
theorem C5_locale_filtering (l : List Char) (ls : List (List Char)) :
    ((∀ code ∈ l :: ls, code ∈ bundledKeys) →
      ∃ files, outputFiles (some (l :: ls)) = .ok files ∧ files.Nodup ∧
        (∀ code ∈ l :: ls, code ++ cl ".json" ∈ files) ∧
        (∀ f ∈ files, ∃ code ∈ l :: ls, f = code ++ cl ".json")) ∧
    ((∃ code ∈ l :: ls, code ∉ bundledKeys) →
      ∃ msg, outputFiles (some (l :: ls)) = .error msg ∧
        ∀ code ∈ l :: ls, code ∉ bundledKeys → code <:+: msg) := by
  constructor
  · intro hall
    have hmiss : (l :: ls).filter (fun code => decide (code ∉ bundledKeys)) = [] := by
      rw [List.filter_eq_nil_iff]
      intro a ha
      simp [hall a ha]
    have hsel : main_select (some (l :: ls))
        = .ok ((dedupFirst [] (l :: ls)).map
            (fun code => (code, (lookupA BUNDLED_LANGS code).getD []))) := by
      rw [main_select, hmiss]
      rfl
    have hfiles : (((dedupFirst [] (l :: ls)).map
          (fun code => (code, (lookupA BUNDLED_LANGS code).getD []))).map
            (fun p => p.1 ++ cl ".json"))
        = (dedupFirst [] (l :: ls)).map (fun code => code ++ cl ".json") := by
      rw [List.map_map]
      rfl
    refine ⟨(dedupFirst [] (l :: ls)).map (fun code => code ++ cl ".json"), ?_, ?_, ?_, ?_⟩
    · rw [outputFiles, hsel]
      rw [show Except.map (fun tl => List.map (fun p => p.1 ++ cl ".json") tl)
          (Except.ok (ε := List Char) ((dedupFirst [] (l :: ls)).map
            (fun code => (code, (lookupA BUNDLED_LANGS code).getD []))))
          = Except.ok (((dedupFirst [] (l :: ls)).map
              (fun code => (code, (lookupA BUNDLED_LANGS code).getD []))).map
                (fun p => p.1 ++ cl ".json")) from rfl]
      rw [hfiles]
    · refine List.Nodup.map ?_ (dedupFirst_good (l :: ls) []).1
      intro a b h
      exact List.append_cancel_right h
    · intro code hcode
      exact List.mem_map.mpr ⟨code, dedupFirst_mem (l :: ls) [] code hcode (by simp), rfl⟩
    · intro f hf
      obtain ⟨code, hmem, hrfl⟩ := List.mem_map.mp hf
      exact ⟨code, dedupFirst_sub (l :: ls) [] code hmem, hrfl.symm⟩
  · rintro ⟨code0, hc0mem, hc0⟩
    have hmem0 : code0 ∈ (l :: ls).filter (fun code => decide (code ∉ bundledKeys)) :=
      List.mem_filter.mpr ⟨hc0mem, by simp [hc0]⟩
    have hne : ((l :: ls).filter (fun code => decide (code ∉ bundledKeys))).isEmpty = false := by
      cases hx : (l :: ls).filter (fun code => decide (code ∉ bundledKeys)) with
      | nil => rw [hx] at hmem0; cases hmem0
      | cons a as => rfl
    refine ⟨cl "Unsupported locale codes: "
        ++ joinComma ((l :: ls).filter (fun code => decide (code ∉ bundledKeys))), ?_, ?_⟩
    · rw [outputFiles, main_select, hne]
      rfl
    · intro code hcmem hcnot
      exact infix_append_right (mem_infix_joinComma _ code
        (List.mem_filter.mpr ⟨hcmem, by simp [hcnot]⟩))

theorem C5_locale_filtering_witness :
    (∃ files, outputFiles (some [cl "de", cl "fr"]) = .ok files ∧ files.Nodup ∧
      (∀ code ∈ [cl "de", cl "fr"], code ++ cl ".json" ∈ files) ∧
      (∀ f ∈ files, ∃ code ∈ [cl "de", cl "fr"], f = code ++ cl ".json")) ∧
    (∃ msg, outputFiles (some [cl "xx"]) = .error msg ∧
      ∀ code ∈ [cl "xx"], code ∉ bundledKeys → code <:+: msg) :=
  ⟨(C5_locale_filtering (cl "de") [cl "fr"]).1 (by decide),
    (C5_locale_filtering (cl "xx") []).2 ⟨cl "xx", by decide, by decide⟩⟩

/-- C6: for the source document `{"greeting": "Hello {{name}}", "count": 3}`
and a translation function that uppercases the safe (placeholder-masked)
text, `translate_value` returns
`{"greeting": "HELLO {{name}}", "count": 3}`: the placeholder `{{name}}` is
untouched (the marker `__TOKEN_0__` survives uppercasing), the key order is
preserved, and the numeric leaf is unchanged. -/
theorem C6_end_to_end :
    (translate_value exampleDoc upperTr []).val
      = .obj [(cl "greeting", .str (cl "HELLO " ++ ['{', '{'] ++ cl "name" ++ ['}', '}'])),
          (cl "count", .num 3)] := rfl

/-- C7: a string in which no position matches the placeholder pattern is
returned unchanged by `protect_placeholders` together with an empty token
list, and restoring with an empty token list is the identity on every
string. -/
theorem C7_no_placeholder (S : List Char) (h : hasMatch S = false) :
    protect_placeholders S = (S, []) ∧ ∀ T : List Char, restore_placeholders T [] = T :=
  ⟨protectF_noMatch S.length S 0 h, fun _ => rfl⟩

theorem C7_no_placeholder_witness :
    protect_placeholders (cl "Hello world") = (cl "Hello world", []) ∧
    ∀ T : List Char, restore_placeholders T [] = T :=
  C7_no_placeholder (cl "Hello world") (by decide)

/-- C8: when the translation function raises for an uncached string S, the
fallback value (S's safe text with the placeholders restored) is stored in
the cache under `(S, target)` together with one warning; and for any
further value v subsequently processed from that cache in the same run —
v may itself contain S any number of times, next to other strings — S is
never sent to the translation function again (it is not in v's call log),
the `(S, target)` entry still holds the fallback on return, every
occurrence of S inside v is replaced by that final cache entry, and a later
occurrence of S processed after v returns the fallback from the cache with
no call and no warning — a failed string is never retried within the run. -/
theorem C8_failed_cached (S : List Char) (tr : Translator) (c : Cache) (e : List Char)
    (hmiss : lookupC c (S, tr.target) = none)
    (herr : tr.translate (protect_placeholders S).1 = .error e) :
    translate_value (.str S) tr c
      = ⟨.str (fallback S), ((S, tr.target), fallback S) :: c, [⟨S, tr.target, e⟩], [S]⟩ ∧
    ∀ v : JsonVal,
      S ∉ (translate_value v tr (((S, tr.target), fallback S) :: c)).calls ∧
      lookupC (translate_value v tr (((S, tr.target), fallback S) :: c)).cache (S, tr.target)
        = some (fallback S) ∧
      (translate_value v tr (((S, tr.target), fallback S) :: c)).val
        = mapStr (fun w =>
            (lookupC (translate_value v tr (((S, tr.target), fallback S) :: c)).cache
              (w, tr.target)).getD w) v ∧
      translate_value (.str S) tr
          (translate_value v tr (((S, tr.target), fallback S) :: c)).cache
        = ⟨.str (fallback S),
            (translate_value v tr (((S, tr.target), fallback S) :: c)).cache, [], []⟩ := by
  constructor
  · simp only [translate_value, hmiss, herr, fallback]
  · intro v
    obtain ⟨ext, m2, _, _, m4⟩ := transInv v tr (((S, tr.target), fallback S) :: c)
    have hlook : lookupC (translate_value v tr (((S, tr.target), fallback S) :: c)).cache
        (S, tr.target) = some (fallback S) :=
      ext (S, tr.target) (fallback S) (lookupC_cons_self _ _ _)
    refine ⟨?_, hlook, m4, ?_⟩
    · intro hmem
      have hnone := (m2 S hmem).1
      rw [lookupC_cons_self] at hnone
      exact Option.noConfusion hnone
    · simp only [translate_value, hlook]

theorem C8_failed_cached_witness :
    (cl "Hi " ++ ['{', 'x', '}'])
        ∉ (translate_value failDoc failTr
            [((cl "Hi " ++ ['{', 'x', '}'], cl "de"), cl "Hi " ++ ['{', 'x', '}'])]).calls ∧
    translate_value (.str (cl "Hi " ++ ['{', 'x', '}'])) failTr
        (translate_value failDoc failTr
          [((cl "Hi " ++ ['{', 'x', '}'], cl "de"), cl "Hi " ++ ['{', 'x', '}'])]).cache
      = ⟨.str (cl "Hi " ++ ['{', 'x', '}']),
          (translate_value failDoc failTr
            [((cl "Hi " ++ ['{', 'x', '}'], cl "de"), cl "Hi " ++ ['{', 'x', '}'])]).cache,
          [], []⟩ := by
  have h := (C8_failed_cached (cl "Hi " ++ ['{', 'x', '}']) failTr [] (cl "boom")
      rfl rfl).2 failDoc
  have e : fallback (cl "Hi " ++ ['{', 'x', '}']) = cl "Hi " ++ ['{', 'x', '}'] := by
    decide
  rw [e] at h
  exact ⟨h.1, h.2.2.2⟩

/-- C9: `restore_placeholders` replaces every occurrence of each marker
`__TOKEN_i__` in its input, not only the first: in a text
`a0 ++ marker i ++ a1 ++ ... ++ marker i ++ an` carrying any number of
occurrences of marker `i` (the separation condition says no stray
occurrence starts inside a segment), the single `str.replace` step rewrites
all of them to the same original placeholder `t`; and the loop starts at
index 0 and processes markers in increasing index order, completing every
replacement of marker `i` before touching marker `i + 1`. -/
theorem C9_replaces_all (t : List Char) (ts : List (List Char)) (i : Nat)
    (segs : List (List Char)) (hs : sepOK (marker i) segs = true) :
    replaceAll (marker i) t (joinWith (marker i) segs) = joinWith t segs ∧
    (∀ text : List Char,
      restore_placeholders text (t :: ts)
        = restoreFrom 1 ts (replaceAll (marker 0) t text)) ∧
    restoreFrom i (t :: ts) (joinWith (marker i) segs)
      = restoreFrom (i + 1) ts (joinWith t segs) := by
  have h := replaceAll_joinWith (marker i) t (marker_ne_nil i) segs hs
  refine ⟨h, fun _ => rfl, ?_⟩
  show restoreFrom (i + 1) ts (replaceAll (marker i) t (joinWith (marker i) segs))
      = restoreFrom (i + 1) ts (joinWith t segs)
  rw [h]

theorem C9_replaces_all_witness :
    replaceAll (marker 0) ['{', 'q', '}']
        (joinWith (marker 0) [cl "x", cl "y", cl "z", cl "w"])
      = joinWith ['{', 'q', '}'] [cl "x", cl "y", cl "z", cl "w"] ∧
    (∀ text : List Char,
      restore_placeholders text [['{', 'q', '}'], ['{', 'r', '}']]
        = restoreFrom 1 [['{', 'r', '}']] (replaceAll (marker 0) ['{', 'q', '}'] text)) ∧
    restoreFrom 0 [['{', 'q', '}'], ['{', 'r', '}']]
        (joinWith (marker 0) [cl "x", cl "y", cl "z", cl "w"])
      = restoreFrom 1 [['{', 'r', '}']]
          (joinWith ['{', 'q', '}'] [cl "x", cl "y", cl "z", cl "w"]) :=
  C9_replaces_all ['{', 'q', '}'] [['{', 'r', '}']] 0 [cl "x", cl "y", cl "z", cl "w"]
    (by decide)

/-- C10: `translate_value` terminates on every finite, acyclic JSON-like
value: the recursion descends strictly into sub-values of mappings and
sequences and returns without recursing on all other inputs, so the
fuel-bounded variant of the walk, whose recursion into children consumes one
unit of fuel, already succeeds — and agrees with `translate_value` — when
given `jsize v` fuel. -/
theorem C10_terminates (v : JsonVal) (tr : Translator) (c : Cache) (fuel : Nat)
    (h : jsize v ≤ fuel) :
    translateFuel fuel v tr c = some (translate_value v tr c) :=
  translateFuel_eq fuel v tr c h

theorem C10_terminates_witness :
    translateFuel 3 exampleDoc upperTr [] = some (translate_value exampleDoc upperTr []) :=
  C10_terminates exampleDoc upperTr [] 3 (by decide)
